import Mathlib

/-!
# Validator transaction processor: validation, application and round extraction

A shallow embedding of the Go packages `models` and `processor`:

* `models/transactions.go`  : `Fee`, `Change`, `Instruction`, `Transaction`,
  `Change.UnmarshalJSON`, `Transaction.ValidateBasicStructure`
* `processor/snapshot.go`   : the balance table `map[string]int64`
* `processor/change_calculator.go` : `CalculateChange`, `CalculateInstructionChanges`,
  `ValidateTransactionChanges`
* `processor/processor.go`  : `ValidateTransaction`, `ApplyTransaction`
* `processor/handler.go`    : `GetPendingTransactions`, `ProcessTransaction` and the
  receive loop of `StartUDPListener`

Go's `int64` is embedded as `Int` with every arithmetic operation reduced into the
two's-complement range by `wrap64`.  A Go `map[string]int64` is embedded as an
association list in which a key occurs at most once; reading `m[k]` is `mapGet`
(zero for an absent key), the two-valued read `v, ok := m[k]` is `mapFind?`, and the
write `m[k] = v` is `mapSet`.  Mutexes and log output are not modelled: every function
is the sequential state transformer obtained by running its body while holding its lock.

Statements about balances, deltas and totals are made in unbounded integers
(`exactTotal`, `exactDelta`, `+`, `-`).  Where the wrapping arithmetic of the code can
differ from them, the theorem carries the hypothesis that the quantity fits in an
`int64`, and a concrete input shows what happens without it.
-/

namespace TxProcessor

/-! ## Signed 64-bit arithmetic -/

/-- Smallest `int64`. -/
def minInt64 : Int := -9223372036854775808

/-- Largest `int64`. -/
def maxInt64 : Int := 9223372036854775807

/-- Two's-complement reduction of an integer into the `int64` range. -/
def wrap64 (x : Int) : Int :=
  (x + 9223372036854775808) % 18446744073709551616 - 9223372036854775808

/-- Go `a + b` on `int64`. -/
def add64 (a b : Int) : Int := wrap64 (a + b)

/-- Go `a - b` on `int64`. -/
def sub64 (a b : Int) : Int := wrap64 (a - b)

/-- Go `-a` on `int64`. -/
def neg64 (a : Int) : Int := wrap64 (-a)

/-- The value is representable as an `int64`. -/
def IsInt64 (x : Int) : Prop := minInt64 ≤ x ∧ x ≤ maxInt64

instance (x : Int) : Decidable (IsInt64 x) := by
  unfold IsInt64; exact inferInstance

/-! ## Go maps `map[string]int64` -/

/-- A `map[string]int64`: an association list, each key stored once. -/
abbrev Int64Map := List (String × Int)

/-- The two-valued map read `v, ok := m[k]`. -/
def mapFind? : Int64Map → String → Option Int
  | [], _ => none
  | (k, v) :: rest, a => if k = a then some v else mapFind? rest a

/-- The map read `m[k]`, zero when the key is absent. -/
def mapGet (m : Int64Map) (a : String) : Int := (mapFind? m a).getD 0

/-- The map write `m[k] = v`: overwrite in place, or add the key. -/
def mapSet : Int64Map → String → Int → Int64Map
  | [], a, x => [(a, x)]
  | (k, v) :: rest, a, x => if k = a then (k, x) :: rest else (k, v) :: mapSet rest a x

/-- The keys of a map. -/
def mapKeys (m : Int64Map) : List String := m.map Prod.fst

/-- The balance table of a `Snapshot`. -/
abbrev Balances := Int64Map

/-! ## `models/transactions.go` -/

/-- Go `type Fee struct`. -/
structure Fee where
  Payer : String
  Amount : Int
deriving DecidableEq, Repr

/-- Go `type Change struct`; `Value *int64` is an optional integer. -/
structure Change where
  Account : String
  Sign : String
  Value : Option Int
deriving DecidableEq, Repr

/-- Go `type Instruction struct`. -/
structure Instruction where
  Account : String
  Change : Change
deriving DecidableEq, Repr

/-- Go `type Transaction struct`. -/
structure Transaction where
  Fee : Fee
  Instructions : List Instruction
deriving DecidableEq, Repr

/-- Go `Change.IsDirectValue`: `c.Value != nil`. -/
def Change.IsDirectValue (c : Change) : Bool := c.Value.isSome

/-- Go `Change.IsAccountReference`: `c.Account != ""`. -/
def Change.IsAccountReference (c : Change) : Bool := decide (c.Account ≠ "")

/-- Go `Change.GetDirectValue`: `*c.Value`.  The Go function panics on a nil pointer;
`none` stands for the panic, which no caller reaches: the only call is guarded by
`IsDirectValue`. -/
def Change.GetDirectValue (c : Change) : Option Int := c.Value

/-! ## `processor/change_calculator.go` -/

/-- The two errors built by `CalculateChange`. -/
inductive ChangeError where
  | invalidSign (sign : String)
  | neitherVariant
deriving DecidableEq, Repr

/-- The error `instruction %d failed: %w` of `CalculateInstructionChanges`. -/
structure InstructionError where
  index : Nat
  cause : ChangeError
deriving DecidableEq, Repr

/-- The three errors built by `ValidateTransactionChanges`. -/
inductive ValidationError where
  | computeFailed (e : InstructionError)
  | nonZeroSum (total : Int)
  | wouldGoNegative (account : String) (balance delta : Int)
deriving DecidableEq, Repr

/-- Go `ChangeCalculator.CalculateChange`, returning the pair `(int64, error)`.  The
`none` arm of the first match is the panic of `GetDirectValue`; it is dead code, since
`IsDirectValue` has just returned true. -/
def CalculateChange (B : Balances) (change : Change) : Int × Option ChangeError :=
  if change.IsDirectValue then
    match change.GetDirectValue with
    | some v => (v, none)
    | none => (0, some ChangeError.neitherVariant)
  else if change.IsAccountReference then
    let balance := match mapFind? B change.Account with
      | some b => b
      | none => 0
    if change.Sign = "plus" then (balance, none)
    else if change.Sign = "minus" then (neg64 balance, none)
    else (0, some (ChangeError.invalidSign change.Sign))
  else (0, some ChangeError.neitherVariant)

/-- The `for i, inst := range instructions` loop of `CalculateInstructionChanges`,
started at index `i` with the accumulators `accountChanges` and `total`. -/
def calcLoop (B : Balances) :
    List Instruction → Nat → Int64Map → Int → Option Int64Map × Int × Option InstructionError
  | [], _, accountChanges, total => (some accountChanges, total, none)
  | inst :: rest, i, accountChanges, total =>
    match CalculateChange B inst.Change with
    | (_, some err) => (none, 0, some (InstructionError.mk i err))
    | (val, none) =>
      calcLoop B rest (i + 1)
        (mapSet accountChanges inst.Account (add64 (mapGet accountChanges inst.Account) val))
        (add64 total val)

/-- Go `ChangeCalculator.CalculateInstructionChanges`, returning the triple
`(map[string]int64, int64, error)`; a nil map is `none`. -/
def CalculateInstructionChanges (B : Balances) (instructions : List Instruction) :
    Option Int64Map × Int × Option InstructionError :=
  calcLoop B instructions 0 [] 0

/-- The `for account, delta := range accountChanges` loop of `ValidateTransactionChanges`.
Go visits the keys in an unspecified order; the list order is used here, which fixes
which failing account is reported but not whether one is. -/
def negativeCheck (B : Balances) : Int64Map → Option ValidationError
  | [] => none
  | (account, delta) :: rest =>
    let balance := mapGet B account
    if add64 balance delta < 0 then
      some (ValidationError.wouldGoNegative account balance delta)
    else negativeCheck B rest

/-- Go `ChangeCalculator.ValidateTransactionChanges`; `none` is the nil error. -/
def ValidateTransactionChanges (B : Balances) (tx : Transaction) : Option ValidationError :=
  match CalculateInstructionChanges B tx.Instructions with
  | (_, _, some err) => some (ValidationError.computeFailed err)
  | (accountChanges, total, none) =>
    if total ≠ 0 then some (ValidationError.nonZeroSum total)
    else negativeCheck B (accountChanges.getD [])

/-! ## `processor/processor.go` -/

/-- The reserved account, `validatorAcct` of `NewTransactionProcessor`. -/
def validatorAcct : String := "validator"

/-- Go `TransactionProcessor.ValidateTransaction` on the balance table `B`. -/
def ValidateTransaction (B : Balances) (tx : Transaction) : Bool :=
  let feePayerBalance := mapGet B tx.Fee.Payer
  if feePayerBalance < tx.Fee.Amount then false
  else
    match ValidateTransactionChanges B tx with
    | some _ => false
    | none => true

/-- The loop `for acct, delta := range accountChanges { Balances[acct] += delta }`. -/
def applyChanges : Balances → Int64Map → Balances
  | B, [] => B
  | B, (acct, delta) :: rest => applyChanges (mapSet B acct (add64 (mapGet B acct) delta)) rest

/-- Go `TransactionProcessor.ApplyTransaction`: the balance table after the call and
the returned error. -/
def ApplyTransaction (B : Balances) (tx : Transaction) : Balances × Option ValidationError :=
  let B1 := mapSet B tx.Fee.Payer (sub64 (mapGet B tx.Fee.Payer) tx.Fee.Amount)
  let B2 := mapSet B1 validatorAcct (add64 (mapGet B1 validatorAcct) tx.Fee.Amount)
  match ValidateTransactionChanges B2 tx with
  | some _ => (B2, none)
  | none =>
    match CalculateInstructionChanges B2 tx.Instructions with
    | (accountChanges, _, _) => (applyChanges B2 (accountChanges.getD []), none)

/-! ## `processor/handler.go` -/

/-- The set `accounts` built per transaction in `GetPendingTransactions`:
the fee payer and the account of every instruction. -/
def touchedAccounts (tx : Transaction) : List String :=
  tx.Fee.Payer :: tx.Instructions.map Instruction.Account

/-- The `for _, tx := range h.pendingTxs` loop of `GetPendingTransactions`, with the
loop state `usedAccounts` (the keys set to true), `batch` and `remaining`. -/
def roundLoop (maxCount : Int) :
    List Transaction → List String → List Transaction → List Transaction →
      List Transaction × List Transaction
  | [], _, batch, remaining => (batch, remaining)
  | tx :: rest, usedAccounts, batch, remaining =>
    if (batch.length : Int) ≥ maxCount then
      roundLoop maxCount rest usedAccounts batch (remaining ++ [tx])
    else
      let accounts := touchedAccounts tx
      let conflict := accounts.any (fun acct => decide (acct ∈ usedAccounts))
      if conflict then
        roundLoop maxCount rest usedAccounts batch (remaining ++ [tx])
      else
        roundLoop maxCount rest (usedAccounts ++ accounts) (batch ++ [tx]) remaining

/-- Go `TransactionHandler.GetPendingTransactions`: the returned batch and the new
value of `h.pendingTxs`. -/
def GetPendingTransactions (pendingTxs : List Transaction) (maxCount : Int) :
    List Transaction × List Transaction :=
  if pendingTxs.length = 0 then ([], pendingTxs)
  else roundLoop maxCount pendingTxs [] [] []

/-! ## `models/transactions.go`: structural validation -/

/-- The four errors built by `Transaction.ValidateBasicStructure`. -/
inductive StructureError where
  | emptyPayer
  | nonPositiveFee (amount : Int)
  | noInstructions
  | emptyInstructionAccount (index : Nat)
deriving DecidableEq, Repr

/-- The `for i, instruction := range t.Instructions` loop of `ValidateBasicStructure`,
started at index `i`. -/
def accountLoop : List Instruction → Nat → Option StructureError
  | [], _ => none
  | instruction :: rest, i =>
    if instruction.Account = "" then some (StructureError.emptyInstructionAccount i)
    else accountLoop rest (i + 1)

/-- Go `Transaction.ValidateBasicStructure`; `none` is the nil error. -/
def Transaction.ValidateBasicStructure (t : Transaction) : Option StructureError :=
  if t.Fee.Payer = "" then some StructureError.emptyPayer
  else if t.Fee.Amount ≤ 0 then some (StructureError.nonPositiveFee t.Fee.Amount)
  else if t.Instructions.length = 0 then some StructureError.noInstructions
  else accountLoop t.Instructions 0

/-! ## `models/transactions.go`: decoding a `Change`

`Change.UnmarshalJSON` calls the library function `json.Unmarshal` three times on its
argument `data`.  The argument is taken here as the JSON value the bytes spell, and
each of the three calls is a function on that value following the documented
behaviour of `encoding/json`.  The conversion through `float64` is floating-point
arithmetic and is left as a parameter. -/

/-- A JSON value.  A number literal without fraction and exponent is `int`; any other
number literal is `real`, kept as its text. -/
inductive Json where
  | null
  | bool (b : Bool)
  | int (n : Int)
  | real (literal : String)
  | str (s : String)
  | arr (items : List Json)
  | obj (fields : List (String × Json))

/-- The call `json.Unmarshal(data, &num)` with `var num int64`: an integer literal in
range is stored, `null` leaves `num` at zero without error, anything else is an
error (`none`). -/
def unmarshalInt64 : Json → Option Int
  | Json.null => some 0
  | Json.int n => if IsInt64 n then some n else none
  | _ => none

/-- The call `json.Unmarshal(data, &floatNum)` with `var floatNum float64`, followed by
`int64(floatNum)`.  Only a number (or `null`) is accepted; for a number the parameter
`float64ToInt64` gives the converted value, or `none` when the literal is outside the
range of `float64`. -/
def unmarshalFloat64 (float64ToInt64 : Json → Option Int) : Json → Option Int
  | Json.null => some 0
  | Json.int n => float64ToInt64 (Json.int n)
  | Json.real literal => float64ToInt64 (Json.real literal)
  | _ => none

/-- The case folding `encoding/json` applies to an object key before comparing it with
a field name, on the runes that can fold to an ASCII letter: the ASCII capitals, the
long s (U+017F) and the Kelvin sign (U+212A). -/
def foldRune (c : Char) : Char :=
  if c = Char.ofNat 383 then 's'
  else if c = Char.ofNat 8490 then 'k'
  else c.toLower

/-- An object key selects the struct field tagged `field` (lower-case ASCII) when it
equals the tag up to case folding. -/
def keyMatches (key field : String) : Bool :=
  decide (key.data.map foldRune = field.data)

/-- Decoding of the members of a JSON object into the anonymous struct
`{Account string; Sign string}` of `UnmarshalJSON`: a matching key with a string value
sets the field (a later one overrides an earlier one), with `null` leaves it, with any
other value records a type error; other keys are skipped.  `ok` is false once a type
error is recorded. -/
def structLoop : List (String × Json) → String → String → Bool → Option (String × String)
  | [], account, sign, ok => if ok then some (account, sign) else none
  | (key, value) :: rest, account, sign, ok =>
    if keyMatches key "account" then
      match value with
      | Json.str s => structLoop rest s sign ok
      | Json.null => structLoop rest account sign ok
      | _ => structLoop rest account sign false
    else if keyMatches key "sign" then
      match value with
      | Json.str s => structLoop rest account s ok
      | Json.null => structLoop rest account sign ok
      | _ => structLoop rest account sign false
    else structLoop rest account sign ok

/-- The call `json.Unmarshal(data, &obj)` for the anonymous struct: an object is decoded
member by member from the zero value, `null` leaves the zero value, anything else is
an error. -/
def unmarshalStruct : Json → Option (String × String)
  | Json.obj fields => structLoop fields "" "" true
  | Json.null => some ("", "")
  | _ => none

/-- The two errors built by `Change.UnmarshalJSON`. -/
inductive DecodeError where
  | notNumberOrObject
  | badSign (sign : String)
deriving DecidableEq, Repr

/-- Go `Change.UnmarshalJSON`: the receiver after the call and the returned error.  On
an error the receiver is left as it was. -/
def Change.UnmarshalJSON (float64ToInt64 : Json → Option Int) (c : Change) (data : Json) :
    Change × Option DecodeError :=
  match unmarshalInt64 data with
  | some num => (Change.mk "" "" (some num), none)
  | none =>
    match unmarshalFloat64 float64ToInt64 data with
    | some intVal => (Change.mk "" "" (some intVal), none)
    | none =>
      match unmarshalStruct data with
      | none => (c, some DecodeError.notNumberOrObject)
      | some (account, sign) =>
        if sign ≠ "plus" ∧ sign ≠ "minus" then (c, some (DecodeError.badSign sign))
        else (Change.mk account sign none, none)

/-! ## `processor/handler.go`: ingestion -/

/-- Go `type TransactionStats struct`, without the wall-clock field `LastProcessedAt`. -/
structure TransactionStats where
  TotalReceived : Int
  TotalProcessed : Int
  TotalInvalid : Int
  TotalFeesPaid : Int
deriving DecidableEq, Repr

/-- Go `type TransactionHandler struct`: the pending list and the statistics.  The
processor it points to is passed to each function as the balance table it reads. -/
structure TransactionHandler where
  pendingTxs : List Transaction
  stats : TransactionStats
deriving DecidableEq, Repr

/-- The updater `s.TotalInvalid++`. -/
def TransactionStats.incInvalid (s : TransactionStats) : TransactionStats :=
  TransactionStats.mk s.TotalReceived s.TotalProcessed (add64 s.TotalInvalid 1) s.TotalFeesPaid

/-- The updater `s.TotalReceived++`. -/
def TransactionStats.incReceived (s : TransactionStats) : TransactionStats :=
  TransactionStats.mk (add64 s.TotalReceived 1) s.TotalProcessed s.TotalInvalid s.TotalFeesPaid

/-- Go `TransactionHandler.ProcessTransaction`, run against the balance table `B`. -/
def ProcessTransaction (B : Balances) (h : TransactionHandler) (tx : Transaction) :
    TransactionHandler :=
  if !ValidateTransaction B tx then
    TransactionHandler.mk h.pendingTxs h.stats.incInvalid
  else
    TransactionHandler.mk (h.pendingTxs ++ [tx]) h.stats

/-- The body of the receive loop of `StartUDPListener` for a datagram that
`json.Unmarshal` decoded into `tx`: the structural check, the statistics, and the
call `go h.ProcessTransaction(tx, clientAddr)` run to completion. -/
def listenerOnDecoded (B : Balances) (h : TransactionHandler) (tx : Transaction) :
    TransactionHandler :=
  match tx.ValidateBasicStructure with
  | some _ => TransactionHandler.mk h.pendingTxs h.stats.incReceived.incInvalid
  | none => ProcessTransaction B (TransactionHandler.mk h.pendingTxs h.stats.incReceived) tx

/-! ## Fixtures -/

/-- A direct-value change. -/
def direct (v : Int) : Change := Change.mk "" "" (some v)

/-- An account-reference change. -/
def ref (account sign : String) : Change := Change.mk account sign none

/-- The sample transaction of `test/send_tx.go`. -/
def sampleTx : Transaction :=
  Transaction.mk (Fee.mk "alice" 1)
    [Instruction.mk "alice" (direct (-10)), Instruction.mk "bob" (direct 2),
     Instruction.mk "carol" (direct 8)]

/-! ## Resolved values, stated independently of the accumulator loops -/

/-- The change resolves: `CalculateChange` returns a nil error. -/
def resolves (B : Balances) (c : Change) : Prop := (CalculateChange B c).2 = none

instance (B : Balances) (c : Change) : Decidable (resolves B c) := by
  unfold resolves; exact inferInstance

/-- The value `CalculateChange` returns for the change. -/
def resolvedValue (B : Balances) (c : Change) : Int := (CalculateChange B c).1

/-- The resolved values of the instructions, in order. -/
def resolvedValues (B : Balances) (instrs : List Instruction) : List Int :=
  instrs.map (fun inst => resolvedValue B inst.Change)

/-- The `int64` sum of a list of values, added left to right onto `init`. -/
def sum64 (init : Int) (vals : List Int) : Int := vals.foldl add64 init

/-- The accounts named by the instructions. -/
def instrAccounts (instrs : List Instruction) : List String := instrs.map Instruction.Account

/-- The net delta of account `k`: the `int64` sum of the resolved values of the
instructions that name `k`. -/
def netDelta (B : Balances) (instrs : List Instruction) (k : String) : Int :=
  sum64 0 (resolvedValues B (instrs.filter (fun inst => decide (inst.Account = k))))

/-- The table after step 1 of `ApplyTransaction`: the fee moved from the payer to
the validator account. -/
def postFee (B : Balances) (tx : Transaction) : Balances :=
  let B1 := mapSet B tx.Fee.Payer (sub64 (mapGet B tx.Fee.Payer) tx.Fee.Amount)
  mapSet B1 validatorAcct (add64 (mapGet B1 validatorAcct) tx.Fee.Amount)

/-- Every stored balance is an `int64`. -/
def InRange (B : Balances) : Prop := ∀ k v, mapFind? B k = some v → IsInt64 v

/-- The map built by the loop of `CalculateInstructionChanges` when every change
resolves, started from the accumulator `acc`. -/
def foldChanges (B : Balances) : List Instruction → Int64Map → Int64Map
  | [], acc => acc
  | inst :: rest, acc =>
    foldChanges B rest
      (mapSet acc inst.Account (add64 (mapGet acc inst.Account) (resolvedValue B inst.Change)))

/-- The instruction check of `ValidateTransactionChanges` in closed form: every change
resolves, the `int64` total is zero, and no named account would go negative. -/
def InstructionsAdmissible (B : Balances) (tx : Transaction) : Prop :=
  (∀ inst ∈ tx.Instructions, resolves B inst.Change) ∧
  sum64 0 (resolvedValues B tx.Instructions) = 0 ∧
  ∀ k ∈ instrAccounts tx.Instructions, 0 ≤ add64 (mapGet B k) (netDelta B tx.Instructions k)

/-- The sum of the resolved values of the instructions, in unbounded integers. -/
def exactTotal (B : Balances) (instrs : List Instruction) : Int :=
  (resolvedValues B instrs).sum

/-- The net delta of account `k` in unbounded integers: the sum of the resolved values
of the instructions that name `k`. -/
def exactDelta (B : Balances) (instrs : List Instruction) (k : String) : Int :=
  (resolvedValues B (instrs.filter (fun inst => decide (inst.Account = k)))).sum

/-- The per-account sums of the resolved values accumulated in unbounded integers,
started from the accumulator `acc`. -/
def exactChanges (B : Balances) : List Instruction → Int64Map → Int64Map
  | [], acc => acc
  | inst :: rest, acc =>
    exactChanges B rest
      (mapSet acc inst.Account (mapGet acc inst.Account + resolvedValue B inst.Change))

/-- Every value of a map reduced into the `int64` range. -/
def wrapMap (m : Int64Map) : Int64Map := m.map (fun e => (e.1, wrap64 e.2))

/-- The balance-aware check as the specification words it, in unbounded integers: the
payer can afford the fee, every change resolves with total zero, and every account
whose net delta is nonzero stays non-negative. -/
def SpecAdmissible (B : Balances) (tx : Transaction) : Prop :=
  tx.Fee.Amount ≤ mapGet B tx.Fee.Payer ∧
  ((∀ inst ∈ tx.Instructions, resolves B inst.Change) ∧
    exactTotal B tx.Instructions = 0) ∧
  ∀ k, exactDelta B tx.Instructions k ≠ 0 →
    0 ≤ mapGet B k + exactDelta B tx.Instructions k

/-- The accounts whose balance `CalculateChange` reads for the transaction: the
account of every change that is not a direct value and is an account reference. -/
def referencedAccounts (tx : Transaction) : List String :=
  (tx.Instructions.filter
    (fun inst => !inst.Change.IsDirectValue && inst.Change.IsAccountReference)).map
    (fun inst => inst.Change.Account)

/-- Two tables hold the same entry, present or absent, at every account of `S`. -/
def AgreeOn (S : List String) (B1 B2 : Balances) : Prop :=
  ∀ k ∈ S, mapFind? B1 k = mapFind? B2 k

/-- Every stored balance is non-negative. -/
def NonNegative (B : Balances) : Prop := ∀ k v, mapFind? B k = some v → 0 ≤ v

/-- The members of a list whose flag in `mask` equals `keep`, in their order. -/
def selectBy (keep : Bool) : List Transaction → List Bool → List Transaction
  | tx :: rest, b :: bs =>
    if b = keep then tx :: selectBy keep rest bs else selectBy keep rest bs
  | _, _ => []

/-- The deferral rule as the specification words it: the round already holds
`maxCount` members, or the transaction touches an account touched by a transaction
selected before it. -/
def specDeferred (maxCount : Int) (selected : List Transaction) (tx : Transaction) : Bool :=
  decide ((selected.length : Int) ≥ maxCount) ||
    (touchedAccounts tx).any
      (fun x => selected.any (fun s => decide (x ∈ touchedAccounts s)))

/-- One step of the greedy scan of the specification on the pair (round, deferred). -/
def specStep (maxCount : Int) (st : List Transaction × List Transaction) (tx : Transaction) :
    List Transaction × List Transaction :=
  if specDeferred maxCount st.1 tx then (st.1, st.2 ++ [tx]) else (st.1 ++ [tx], st.2)

/-- The greedy single-pass selection of the specification: scan in arrival order,
defer by `specDeferred`, select otherwise. -/
def specRound (maxCount : Int) (pending : List Transaction) :
    List Transaction × List Transaction :=
  pending.foldl (specStep maxCount) ([], [])

/-- The sum, in unbounded integers, of the values stored in a map. -/
def mapSum (m : Int64Map) : Int := (m.map Prod.snd).sum

/-! ## Tables and transactions for the concrete checks -/

/-- A transaction whose single instruction leaves "bob" unchanged. -/
def zeroDeltaTx : Transaction :=
  Transaction.mk (Fee.mk "alice" 1) [Instruction.mk "bob" (direct 0)]

/-- A table in which "bob" is overdrawn. -/
def overdrawnTable : Balances := [("alice", 10), ("bob", -1)]

/-- The table of the fee-only fixture. -/
def feeOnlyTable : Balances := [("alice", 5), ("validator", 0)]

/-- A second transaction, between accounts the sample does not touch. -/
def otherTx : Transaction :=
  Transaction.mk (Fee.mk "dave" 1)
    [Instruction.mk "dave" (direct (-5)), Instruction.mk "erin" (direct 5)]

/-- A transaction moving the current balance of "dave" from "alice" to "carol". -/
def referenceTx : Transaction :=
  Transaction.mk (Fee.mk "alice" 1)
    [Instruction.mk "alice" (ref "dave" "minus"), Instruction.mk "carol" (ref "dave" "plus")]

/-- A transaction moving 2 from the validator account to "alice". -/
def validatorDebitTx : Transaction :=
  Transaction.mk (Fee.mk "alice" 1)
    [Instruction.mk "validator" (direct (-2)), Instruction.mk "alice" (direct 2)]

/-- A table for the ordering fixtures. -/
def orderingTable : Balances := [("alice", 100), ("dave", 10), ("validator", 0)]

/-- A transaction between "erin" and "frank". -/
def isolatedTx : Transaction :=
  Transaction.mk (Fee.mk "erin" 1)
    [Instruction.mk "erin" (direct (-3)), Instruction.mk "frank" (direct 3)]

/-- A table for the commuting fixture. -/
def commutingTable : Balances := [("alice", 100), ("dave", 10), ("erin", 10), ("validator", 0)]

/-- A transaction whose instructions pass on a table where its payer cannot afford
the fee. -/
def thirdPartyTx : Transaction :=
  Transaction.mk (Fee.mk "alice" 1)
    [Instruction.mk "bob" (direct (-5)), Instruction.mk "carol" (direct 5)]

/-- A table in which "alice" holds exactly the fee of `thirdPartyTx`. -/
def thirdPartyTable : Balances := [("alice", 1), ("bob", 5), ("validator", 0)]

/-- A transaction moving the whole current balance of its payer "alice" to "bob". -/
def drainTx : Transaction :=
  Transaction.mk (Fee.mk "alice" 1)
    [Instruction.mk "alice" (ref "alice" "minus"), Instruction.mk "bob" (ref "alice" "plus")]

/-- A table for the draining fixture. -/
def drainTable : Balances := [("alice", 10), ("validator", 0)]

/-- The mutated fixture: the sample transaction with "bob" credited 3, total 1. -/
def mutatedTx : Transaction :=
  Transaction.mk (Fee.mk "alice" 1)
    [Instruction.mk "alice" (direct (-10)), Instruction.mk "bob" (direct 3),
     Instruction.mk "carol" (direct 8)]

/-- A table in which the validator account holds the largest `int64`. -/
def saturatedTable : Balances := [("alice", 1), ("validator", 9223372036854775807)]

/-- A transaction paying fee 1 from "alice" with an instruction of value 0. -/
def idleTx : Transaction :=
  Transaction.mk (Fee.mk "alice" 1) [Instruction.mk "alice" (direct 0)]

/-- A table on which the sample transaction is applied in full. -/
def fundedTable : Balances := [("alice", 11), ("validator", 0)]

/-- A table in which "alice" holds 10. -/
def tenTable : Balances := [("alice", 10)]

/-- A table in which "bob" holds 50 and "dave" has never been seen. -/
def bobTable : Balances := [("bob", 50)]

/-- Three instructions, the second and third with an invalid sign. -/
def badSignInstrs : List Instruction :=
  [Instruction.mk "alice" (direct 4), Instruction.mk "bob" (ref "alice" "up"),
   Instruction.mk "carol" (ref "alice" "down")]

/-- Three instructions, two of them naming "bob", one referencing "bob". -/
def repeatedInstrs : List Instruction :=
  [Instruction.mk "bob" (direct 7), Instruction.mk "alice" (ref "bob" "minus"),
   Instruction.mk "bob" (direct (-2))]

/-- A handler with one queued transaction and seven invalid ones counted. -/
def busyHandler : TransactionHandler :=
  TransactionHandler.mk [otherTx] (TransactionStats.mk 9 1 7 1)

/-- A transaction whose four credits of 2^62 add up to 2^64. -/
def wrappingTx : Transaction :=
  Transaction.mk (Fee.mk "alice" 1)
    [Instruction.mk "bob" (direct 4611686018427387904),
     Instruction.mk "carol" (direct 4611686018427387904),
     Instruction.mk "dave" (direct 4611686018427387904),
     Instruction.mk "erin" (direct 4611686018427387904)]

/-- A table in which "alice" holds exactly the fee of `wrappingTx`. -/
def unitTable : Balances := [("alice", 1), ("validator", 0)]

/-- A table in which "alice" holds the smallest `int64`. -/
def floorTable : Balances := [("alice", -9223372036854775808), ("validator", 0)]

/-- A transaction debiting the overdrawn account "a" by 2^63 and crediting the same
amount to "b" and "c"; its values add up to exactly 0. -/
def borrowTx : Transaction :=
  Transaction.mk (Fee.mk "p" 1)
    [Instruction.mk "a" (direct (-9223372036854775808)),
     Instruction.mk "b" (direct 9223372036854775807),
     Instruction.mk "c" (direct 1)]

/-- A table in which "a" is overdrawn by 1 and "p" holds 2. -/
def borrowTable : Balances := [("p", 2), ("a", -1)]

/-- A table in which "alice" holds 2. -/
def twoTable : Balances := [("alice", 2), ("validator", 0)]

/-- A table in which "bob" holds the smallest `int64`. -/
def floorBobTable : Balances := [("bob", -9223372036854775808)]

/-- Instructions whose values for "a" add up to 2^63 while all values add up to 0. -/
def carryInstrs : List Instruction :=
  [Instruction.mk "a" (direct 9223372036854775807), Instruction.mk "a" (direct 1),
   Instruction.mk "b" (direct (-9223372036854775808))]

/-- A transaction moving the current balance of the validator account from "alice" to
"carol". -/
def validatorRefTx : Transaction :=
  Transaction.mk (Fee.mk "alice" 1)
    [Instruction.mk "alice" (ref "validator" "minus"),
     Instruction.mk "carol" (ref "validator" "plus")]

/-- A transaction whose fee is paid by the validator account itself. -/
def validatorPaysTx : Transaction :=
  Transaction.mk (Fee.mk "validator" 2)
    [Instruction.mk "erin" (direct (-3)), Instruction.mk "frank" (direct 3)]

/-! ## Arithmetic lemmas -/

theorem wrap64_of_isInt64 {x : Int} (h : IsInt64 x) : wrap64 x = x := by
  unfold IsInt64 minInt64 maxInt64 at h
  unfold wrap64
  omega

theorem isInt64_wrap64 (x : Int) : IsInt64 (wrap64 x) := by
  unfold IsInt64 minInt64 maxInt64 wrap64
  omega

theorem add64_right_comm (x a b : Int) : add64 (add64 x a) b = add64 (add64 x b) a := by
  unfold add64 wrap64
  omega

theorem add64_sub64_cancel {x : Int} (f : Int) (h : IsInt64 x) :
    add64 (sub64 x f) f = x := by
  unfold IsInt64 minInt64 maxInt64 at h
  unfold add64 sub64 wrap64
  omega

/-! ## Map lemmas -/

theorem mapFind?_mapSet_self (m : Int64Map) (k : String) (v : Int) :
    mapFind? (mapSet m k v) k = some v := by
  induction m with
  | nil => simp [mapSet, mapFind?]
  | cons e rest ih =>
    obtain ⟨k0, v0⟩ := e
    by_cases h : k0 = k
    · simp [mapSet, mapFind?, h]
    · simp [mapSet, mapFind?, h, ih]

theorem mapFind?_mapSet_ne (m : Int64Map) {k a : String} (v : Int) (h : k ≠ a) :
    mapFind? (mapSet m k v) a = mapFind? m a := by
  induction m with
  | nil => simp [mapSet, mapFind?, h]
  | cons e rest ih =>
    obtain ⟨k0, v0⟩ := e
    by_cases h0 : k0 = k
    · subst h0
      simp [mapSet, mapFind?, h]
    · simp only [mapSet, h0, if_false, mapFind?, ih]

theorem mapFind?_mapSet (m : Int64Map) (k a : String) (v : Int) :
    mapFind? (mapSet m k v) a = if k = a then some v else mapFind? m a := by
  by_cases h : k = a
  · subst h
    simp [mapFind?_mapSet_self]
  · simp [h, mapFind?_mapSet_ne m v h]

theorem mapGet_mapSet (m : Int64Map) (k a : String) (v : Int) :
    mapGet (mapSet m k v) a = if k = a then v else mapGet m a := by
  unfold mapGet
  rw [mapFind?_mapSet]
  by_cases h : k = a <;> simp [h]

theorem mapFind?_eq_none_iff (m : Int64Map) (a : String) :
    mapFind? m a = none ↔ a ∉ mapKeys m := by
  induction m with
  | nil => simp [mapFind?, mapKeys]
  | cons e rest ih =>
    obtain ⟨k0, v0⟩ := e
    by_cases h : k0 = a
    · simp [mapFind?, mapKeys, h]
    · have h2 : ¬ a = k0 := fun h3 => h h3.symm
      simp only [mapFind?, h, if_false, ih]
      simp [mapKeys, h2]

theorem mem_mapKeys_mapSet (m : Int64Map) (k a : String) (v : Int) :
    a ∈ mapKeys (mapSet m k v) ↔ a = k ∨ a ∈ mapKeys m := by
  have h1 := mapFind?_eq_none_iff (mapSet m k v) a
  have h2 := mapFind?_eq_none_iff m a
  rw [mapFind?_mapSet] at h1
  by_cases h : k = a
  · subst h
    simp only [if_true] at h1
    constructor
    · intro _
      exact Or.inl rfl
    · intro _
      by_contra hc
      exact absurd (h1.mpr hc) (by simp)
  · simp only [h, if_false] at h1
    have h3 : ¬ a = k := fun h4 => h h4.symm
    constructor
    · intro hm
      right
      by_contra hc
      exact (h1.mp (h2.mpr hc)) hm
    · rintro (hm | hm)
      · exact absurd hm h3
      · by_contra hc
        exact (h2.mp (h1.mpr hc)) hm

theorem mapKeys_mapSet_nodup (m : Int64Map) (k : String) (v : Int)
    (h : (mapKeys m).Nodup) : (mapKeys (mapSet m k v)).Nodup := by
  induction m with
  | nil => simp [mapSet, mapKeys]
  | cons e rest ih =>
    obtain ⟨k0, v0⟩ := e
    have hk : k0 ∉ mapKeys rest ∧ (mapKeys rest).Nodup := by
      simpa [mapKeys] using h
    by_cases h0 : k0 = k
    · simpa [mapSet, h0, mapKeys] using h
    · have hm : k0 ∉ mapKeys (mapSet rest k v) := by
        rw [mem_mapKeys_mapSet]
        rintro (h1 | h1)
        · exact h0 h1
        · exact hk.1 h1
      have hn := ih hk.2
      simp only [mapSet, h0, if_false]
      simp only [mapKeys, List.map_cons, List.nodup_cons] at hm hn ⊢
      exact ⟨hm, hn⟩

theorem mem_of_mem_mapKeys (m : Int64Map) (k : String) (h : k ∈ mapKeys m) :
    (k, mapGet m k) ∈ m := by
  induction m with
  | nil => simp [mapKeys] at h
  | cons e rest ih =>
    obtain ⟨k0, v0⟩ := e
    by_cases h0 : k0 = k
    · subst h0
      simp [mapGet, mapFind?]
    · have h2 : ¬ k = k0 := fun h3 => h0 h3.symm
      have hr : k ∈ mapKeys rest := by
        simpa [mapKeys, h2] using h
      have := ih hr
      simp only [mapGet, mapFind?, h0, if_false]
      exact List.mem_cons_of_mem _ this

theorem mapGet_of_mem (m : Int64Map) (k : String) (d : Int) (hn : (mapKeys m).Nodup)
    (h : (k, d) ∈ m) : mapGet m k = d := by
  induction m with
  | nil => simp at h
  | cons e rest ih =>
    obtain ⟨k0, v0⟩ := e
    have hk : k0 ∉ mapKeys rest ∧ (mapKeys rest).Nodup := by
      simpa [mapKeys] using hn
    rcases List.mem_cons.mp h with h1 | h1
    · have h2 : k = k0 ∧ d = v0 := by simpa using h1
      simp [mapGet, mapFind?, h2.1, h2.2]
    · have hmem : k ∈ mapKeys rest := by
        simp only [mapKeys, List.mem_map]
        exact ⟨(k, d), h1, rfl⟩
      have h0 : k0 ≠ k := by
        intro hc
        exact hk.1 (hc ▸ hmem)
      have := ih hk.2 h1
      simpa [mapGet, mapFind?, h0] using this

theorem mapFind?_of_mem_mapKeys (m : Int64Map) (k : String) (h : k ∈ mapKeys m) :
    mapFind? m k = some (mapGet m k) := by
  cases hf : mapFind? m k with
  | none => exact absurd h ((mapFind?_eq_none_iff m k).mp hf)
  | some v => simp [mapGet, hf]

theorem mapGet_of_not_mem_mapKeys (m : Int64Map) (k : String) (h : k ∉ mapKeys m) :
    mapGet m k = 0 := by
  simp [mapGet, (mapFind?_eq_none_iff m k).mpr h]

/-! ## The loops of the change calculator -/

theorem calcLoop_of_resolves (B : Balances) (instrs : List Instruction) (i : Nat)
    (acc : Int64Map) (t : Int) (h : ∀ inst ∈ instrs, resolves B inst.Change) :
    calcLoop B instrs i acc t
      = (some (foldChanges B instrs acc), sum64 t (resolvedValues B instrs), none) := by
  induction instrs generalizing i acc t with
  | nil => simp [calcLoop, foldChanges, sum64, resolvedValues]
  | cons inst rest ih =>
    have hr : resolves B inst.Change := h inst (List.mem_cons_self _ _)
    have hrest : ∀ x ∈ rest, resolves B x.Change :=
      fun x hx => h x (List.mem_cons_of_mem _ hx)
    unfold resolves at hr
    rcases hc : CalculateChange B inst.Change with ⟨val, err⟩
    rw [hc] at hr
    simp only at hr
    subst hr
    have hv : resolvedValue B inst.Change = val := by simp [resolvedValue, hc]
    simp only [calcLoop, hc, foldChanges, hv, resolvedValues, List.map_cons, sum64,
      List.foldl_cons]
    have := ih (i + 1)
      (mapSet acc inst.Account (add64 (mapGet acc inst.Account) val)) (add64 t val) hrest
    simpa [sum64, resolvedValues] using this

theorem calcLoop_of_not_resolves (B : Balances) (instrs : List Instruction) (i : Nat)
    (acc : Int64Map) (t : Int) (h : ¬ ∀ inst ∈ instrs, resolves B inst.Change) :
    ∃ e, calcLoop B instrs i acc t = (none, 0, some e) := by
  induction instrs generalizing i acc t with
  | nil => simp at h
  | cons inst rest ih =>
    rcases hc : CalculateChange B inst.Change with ⟨val, err⟩
    cases err with
    | some e => exact ⟨InstructionError.mk i e, by simp [calcLoop, hc]⟩
    | none =>
      have hr : resolves B inst.Change := by simp [resolves, hc]
      have hrest : ¬ ∀ x ∈ rest, resolves B x.Change := by
        intro hall
        apply h
        intro x hx
        rcases List.mem_cons.mp hx with h1 | h1
        · rw [h1]; exact hr
        · exact hall x h1
      obtain ⟨e, he⟩ := ih (i + 1)
        (mapSet acc inst.Account (add64 (mapGet acc inst.Account) val)) (add64 t val) hrest
      exact ⟨e, by simp [calcLoop, hc, he]⟩

theorem mapGet_foldChanges (B : Balances) (instrs : List Instruction) (acc : Int64Map)
    (k : String) :
    mapGet (foldChanges B instrs acc) k
      = sum64 (mapGet acc k)
          (resolvedValues B (instrs.filter (fun inst => decide (inst.Account = k)))) := by
  induction instrs generalizing acc with
  | nil => simp [foldChanges, sum64, resolvedValues]
  | cons inst rest ih =>
    simp only [foldChanges]
    rw [ih, mapGet_mapSet]
    by_cases h : inst.Account = k
    · simp [h, sum64, resolvedValues]
    · simp [h, sum64, resolvedValues]

theorem mem_mapKeys_foldChanges (B : Balances) (instrs : List Instruction) (acc : Int64Map)
    (k : String) :
    k ∈ mapKeys (foldChanges B instrs acc) ↔ k ∈ instrAccounts instrs ∨ k ∈ mapKeys acc := by
  induction instrs generalizing acc with
  | nil => simp [foldChanges, instrAccounts]
  | cons inst rest ih =>
    simp only [foldChanges]
    rw [ih, mem_mapKeys_mapSet]
    simp only [instrAccounts, List.map_cons, List.mem_cons]
    tauto

theorem foldChanges_nodup (B : Balances) (instrs : List Instruction) (acc : Int64Map)
    (h : (mapKeys acc).Nodup) : (mapKeys (foldChanges B instrs acc)).Nodup := by
  induction instrs generalizing acc with
  | nil => simpa [foldChanges] using h
  | cons inst rest ih =>
    simp only [foldChanges]
    exact ih _ (mapKeys_mapSet_nodup acc _ _ h)

theorem negativeCheck_eq_none_iff (B : Balances) (ch : Int64Map) :
    negativeCheck B ch = none ↔ ∀ e ∈ ch, 0 ≤ add64 (mapGet B e.1) e.2 := by
  induction ch with
  | nil => simp [negativeCheck]
  | cons e rest ih =>
    obtain ⟨a, d⟩ := e
    by_cases h : add64 (mapGet B a) d < 0
    · simp only [negativeCheck, h, if_true]
      constructor
      · intro hc
        exact absurd hc (by simp)
      · intro hall
        have := hall (a, d) (List.mem_cons_self _ _)
        simp only at this
        omega
    · simp only [negativeCheck, h, if_false, ih, List.mem_cons]
      constructor
      · rintro hall e (he | he)
        · subst he
          simp only
          omega
        · exact hall e he
      · intro hall e he
        exact hall e (Or.inr he)

theorem negativeCheck_eq_none_iff_keys (B : Balances) (ch : Int64Map)
    (hn : (mapKeys ch).Nodup) :
    negativeCheck B ch = none ↔ ∀ k ∈ mapKeys ch, 0 ≤ add64 (mapGet B k) (mapGet ch k) := by
  rw [negativeCheck_eq_none_iff]
  constructor
  · intro hall k hk
    exact hall (k, mapGet ch k) (mem_of_mem_mapKeys ch k hk)
  · intro hall e he
    obtain ⟨a, d⟩ := e
    have hk : a ∈ mapKeys ch := by
      simp only [mapKeys, List.mem_map]
      exact ⟨(a, d), he, rfl⟩
    have := hall a hk
    rw [mapGet_of_mem ch a d hn he] at this
    exact this

theorem validateTransactionChanges_eq_none_iff (B : Balances) (tx : Transaction) :
    ValidateTransactionChanges B tx = none ↔ InstructionsAdmissible B tx := by
  unfold InstructionsAdmissible
  by_cases hres : ∀ inst ∈ tx.Instructions, resolves B inst.Change
  · have hloop := calcLoop_of_resolves B tx.Instructions 0 [] 0 hres
    have hnd : (mapKeys (foldChanges B tx.Instructions [])).Nodup :=
      foldChanges_nodup B tx.Instructions [] (by simp [mapKeys])
    simp only [ValidateTransactionChanges, CalculateInstructionChanges, hloop, Option.getD_some]
    by_cases ht : sum64 0 (resolvedValues B tx.Instructions) = 0
    · simp only [ht, ne_eq, not_true_eq_false, if_false]
      rw [negativeCheck_eq_none_iff_keys B _ hnd]
      constructor
      · intro hall
        refine ⟨hres, trivial, ?_⟩
        intro k hk
        have hk2 : k ∈ mapKeys (foldChanges B tx.Instructions []) :=
          (mem_mapKeys_foldChanges B tx.Instructions [] k).mpr (Or.inl hk)
        have := hall k hk2
        rw [mapGet_foldChanges] at this
        simpa [netDelta, mapGet, mapFind?] using this
      · rintro ⟨_, _, hall⟩ k hk
        have hk2 : k ∈ instrAccounts tx.Instructions := by
          rcases (mem_mapKeys_foldChanges B tx.Instructions [] k).mp hk with h1 | h1
          · exact h1
          · simp [mapKeys] at h1
        have := hall k hk2
        rw [mapGet_foldChanges]
        simpa [netDelta, mapGet, mapFind?] using this
    · simp only [ne_eq, ht, not_false_eq_true, if_true]
      constructor
      · intro hc
        exact absurd hc (by simp)
      · rintro ⟨_, h0, _⟩
        exact h0.elim
  · obtain ⟨e, he⟩ := calcLoop_of_not_resolves B tx.Instructions 0 [] 0 hres
    simp only [ValidateTransactionChanges, CalculateInstructionChanges, he]
    constructor
    · intro hc
      exact absurd hc (by simp)
    · rintro ⟨h0, _⟩
      exact absurd h0 hres

theorem mapFind?_applyChanges (P : Balances) (ch : Int64Map) (k : String)
    (hn : (mapKeys ch).Nodup) :
    mapFind? (applyChanges P ch) k
      = if k ∈ mapKeys ch then some (add64 (mapGet P k) (mapGet ch k)) else mapFind? P k := by
  induction ch generalizing P with
  | nil => simp [applyChanges, mapKeys]
  | cons e rest ih =>
    obtain ⟨a, d⟩ := e
    have hk : a ∉ mapKeys rest ∧ (mapKeys rest).Nodup := by
      simpa [mapKeys] using hn
    simp only [applyChanges]
    rw [ih _ hk.2]
    by_cases h : a = k
    · subst h
      have hin : a ∈ mapKeys ((a, d) :: rest) := by simp [mapKeys]
      rw [if_neg hk.1, mapFind?_mapSet_self, if_pos hin]
      simp [mapGet, mapFind?]
    · have h2 : ¬ k = a := fun h3 => h h3.symm
      have hg : mapGet ((a, d) :: rest) k = mapGet rest k := by
        simp [mapGet, mapFind?, h]
      have hm : k ∈ mapKeys ((a, d) :: rest) ↔ k ∈ mapKeys rest := by
        simp [mapKeys, h2]
      rw [hg, mapGet_mapSet, mapFind?_mapSet]
      simp only [h, if_false]
      by_cases hr : k ∈ mapKeys rest
      · simp [hr, hm.mpr hr]
      · have hr2 : k ∉ mapKeys ((a, d) :: rest) := fun hc => hr (hm.mp hc)
        simp [hr, hr2]

/-- Pointwise description of the table left by `ApplyTransaction`. -/
theorem mapFind?_applyTransaction (B : Balances) (tx : Transaction) (k : String) :
    mapFind? (ApplyTransaction B tx).1 k
      = if ValidateTransactionChanges (postFee B tx) tx = none
            ∧ k ∈ instrAccounts tx.Instructions then
          some (add64 (mapGet (postFee B tx) k) (netDelta (postFee B tx) tx.Instructions k))
        else mapFind? (postFee B tx) k := by
  have hP : mapSet (mapSet B tx.Fee.Payer (sub64 (mapGet B tx.Fee.Payer) tx.Fee.Amount))
      validatorAcct
      (add64 (mapGet (mapSet B tx.Fee.Payer (sub64 (mapGet B tx.Fee.Payer) tx.Fee.Amount))
        validatorAcct) tx.Fee.Amount) = postFee B tx := rfl
  cases hv : ValidateTransactionChanges (postFee B tx) tx with
  | some e => simp [ApplyTransaction, hP, hv]
  | none =>
    have hadm := (validateTransactionChanges_eq_none_iff (postFee B tx) tx).mp hv
    have hloop := calcLoop_of_resolves (postFee B tx) tx.Instructions 0 [] 0 hadm.1
    have hnd : (mapKeys (foldChanges (postFee B tx) tx.Instructions [])).Nodup :=
      foldChanges_nodup (postFee B tx) tx.Instructions [] (by simp [mapKeys])
    simp only [ApplyTransaction, hP, hv, CalculateInstructionChanges, hloop, Option.getD_some,
      true_and]
    rw [mapFind?_applyChanges _ _ _ hnd, mapGet_foldChanges]
    have hmem : k ∈ mapKeys (foldChanges (postFee B tx) tx.Instructions [])
        ↔ k ∈ instrAccounts tx.Instructions := by
      rw [mem_mapKeys_foldChanges]
      simp [mapKeys]
    by_cases hk : k ∈ instrAccounts tx.Instructions
    · simp [hk, hmem.mpr hk, netDelta, mapGet, mapFind?]
    · have hk2 : k ∉ mapKeys (foldChanges (postFee B tx) tx.Instructions []) :=
        fun hc => hk (hmem.mp hc)
      simp [hk, hk2]

theorem mapFind?_postFee (B : Balances) (tx : Transaction) (k : String) :
    mapFind? (postFee B tx) k
      = if validatorAcct = k then
          some (add64 (if tx.Fee.Payer = validatorAcct
                  then sub64 (mapGet B tx.Fee.Payer) tx.Fee.Amount
                  else mapGet B validatorAcct) tx.Fee.Amount)
        else if tx.Fee.Payer = k then some (sub64 (mapGet B tx.Fee.Payer) tx.Fee.Amount)
        else mapFind? B k := by
  simp only [postFee, mapFind?_mapSet, mapGet_mapSet]

/-! ## The admission check -/

theorem validateTransaction_eq_true_iff (B : Balances) (tx : Transaction) :
    ValidateTransaction B tx = true
      ↔ tx.Fee.Amount ≤ mapGet B tx.Fee.Payer ∧ InstructionsAdmissible B tx := by
  rw [← validateTransactionChanges_eq_none_iff]
  unfold ValidateTransaction
  simp only
  by_cases hfee : mapGet B tx.Fee.Payer < tx.Fee.Amount
  · simp only [hfee, if_true]
    constructor
    · intro h
      exact absurd h (by simp)
    · rintro ⟨h, _⟩
      omega
  · simp only [hfee, if_false]
    cases hv : ValidateTransactionChanges B tx with
    | none =>
      simp only [true_and, and_true, true_iff]
      omega
    | some e => simp

/-! ## Round extraction -/

theorem roundLoop_pairwise (maxCount : Int) (pending : List Transaction)
    (used : List String) (batch remaining : List Transaction)
    (hpw : batch.Pairwise (fun a b => List.Disjoint (touchedAccounts a) (touchedAccounts b)))
    (hused : ∀ t ∈ batch, ∀ x ∈ touchedAccounts t, x ∈ used) :
    (roundLoop maxCount pending used batch remaining).1.Pairwise
      (fun a b => List.Disjoint (touchedAccounts a) (touchedAccounts b)) := by
  induction pending generalizing used batch remaining with
  | nil => simpa [roundLoop] using hpw
  | cons tx rest ih =>
    unfold roundLoop
    by_cases hfull : (batch.length : Int) ≥ maxCount
    · simp only [hfull, if_true]
      exact ih used batch (remaining ++ [tx]) hpw hused
    · simp only [hfull, if_false]
      by_cases hc : (touchedAccounts tx).any (fun acct => decide (acct ∈ used)) = true
      · simp only [hc, if_true]
        exact ih used batch (remaining ++ [tx]) hpw hused
      · simp only [hc]
        have hfree : ∀ x ∈ touchedAccounts tx, x ∉ used := by
          intro x hx hu
          apply hc
          rw [List.any_eq_true]
          exact ⟨x, hx, by simpa using hu⟩
        apply ih
        · rw [List.pairwise_append]
          refine ⟨hpw, List.pairwise_singleton _ _, ?_⟩
          intro a ha b hb
          rw [List.mem_singleton] at hb
          subst hb
          intro x hxa hxb
          exact hfree x hxb (hused a ha x hxa)
        · intro t ht x hx
          rcases List.mem_append.mp ht with h1 | h1
          · exact List.mem_append_left _ (hused t h1 x hx)
          · rw [List.mem_singleton] at h1
            subst h1
            exact List.mem_append_right _ hx

theorem roundLoop_length_le (maxCount : Int) (pending : List Transaction)
    (used : List String) (batch remaining : List Transaction)
    (hlen : (batch.length : Int) ≤ maxCount) :
    ((roundLoop maxCount pending used batch remaining).1.length : Int) ≤ maxCount := by
  induction pending generalizing used batch remaining with
  | nil => simpa [roundLoop] using hlen
  | cons tx rest ih =>
    unfold roundLoop
    by_cases hfull : (batch.length : Int) ≥ maxCount
    · simp only [hfull, if_true]
      exact ih used batch (remaining ++ [tx]) hlen
    · simp only [hfull, if_false]
      by_cases hc : (touchedAccounts tx).any (fun acct => decide (acct ∈ used)) = true
      · simp only [hc, if_true]
        exact ih used batch (remaining ++ [tx]) hlen
      · simp only [hc]
        apply ih
        simp only [List.length_append, List.length_singleton, Nat.cast_add, Nat.cast_one]
        omega

/-- C3. No two members of a round share a touched account: the round returned by
`GetPendingTransactions` is pairwise disjoint in its touched-account sets (fee payer
and every instruction account), position by position, and so any two distinct
transactions of the round have disjoint touched-account sets. -/
theorem getPendingTransactions_conflict_free (pendingTxs : List Transaction) (maxCount : Int) :
    (GetPendingTransactions pendingTxs maxCount).1.Pairwise
        (fun a b => List.Disjoint (touchedAccounts a) (touchedAccounts b)) ∧
    ∀ a ∈ (GetPendingTransactions pendingTxs maxCount).1,
      ∀ b ∈ (GetPendingTransactions pendingTxs maxCount).1,
        a ≠ b → List.Disjoint (touchedAccounts a) (touchedAccounts b) := by
  have hpw : (GetPendingTransactions pendingTxs maxCount).1.Pairwise
      (fun a b => List.Disjoint (touchedAccounts a) (touchedAccounts b)) := by
    unfold GetPendingTransactions
    by_cases h : pendingTxs.length = 0
    · simp [h]
    · simp only [h, if_false]
      exact roundLoop_pairwise maxCount pendingTxs [] [] [] List.Pairwise.nil (by simp)
  refine ⟨hpw, ?_⟩
  intro a ha b hb hab
  exact List.Pairwise.forall (fun x y hxy => List.Disjoint.symm hxy) hpw ha hb hab

/-- C10. For a non-negative `maxCount` the round returned by `GetPendingTransactions`
holds at most `maxCount` transactions. -/
theorem getPendingTransactions_length_le (pendingTxs : List Transaction) (maxCount : Int)
    (hmax : 0 ≤ maxCount) :
    ((GetPendingTransactions pendingTxs maxCount).1.length : Int) ≤ maxCount := by
  unfold GetPendingTransactions
  by_cases h : pendingTxs.length = 0
  · simpa [h] using hmax
  · simp only [h, if_false]
    exact roundLoop_length_le maxCount pendingTxs [] [] [] (by simpa using hmax)

/-- C10 at a concrete queue: two non-conflicting transactions and `maxCount` 1 give a
round of one transaction. -/
theorem getPendingTransactions_length_le_witness :
    (0 : Int) ≤ 1 ∧
    (GetPendingTransactions [sampleTx, otherTx] 1).1 = [sampleTx] ∧
    (((GetPendingTransactions [sampleTx, otherTx] 1).1.length : Int) ≤ 1) :=
  ⟨by decide, by decide, getPendingTransactions_length_le [sampleTx, otherTx] 1 (by decide)⟩

/-! ## Order of application inside a round -/

theorem mapGet_eq_of_mapFind?_eq {B1 B2 : Balances} {k : String}
    (h : mapFind? B1 k = mapFind? B2 k) : mapGet B1 k = mapGet B2 k := by
  simp [mapGet, h]

theorem mem_touchedAccounts_of_mem_instrAccounts (tx : Transaction) (k : String)
    (h : k ∈ instrAccounts tx.Instructions) : k ∈ touchedAccounts tx := by
  unfold touchedAccounts
  exact List.mem_cons_of_mem _ h

theorem payer_mem_touchedAccounts (tx : Transaction) : tx.Fee.Payer ∈ touchedAccounts tx := by
  unfold touchedAccounts
  exact List.mem_cons_self _ _

/-- Accounts outside the touched set, other than the validator account, are not
changed by `ApplyTransaction`. -/
theorem mapFind?_applyTransaction_frame (B : Balances) (tx : Transaction) (k : String)
    (hk : k ∉ touchedAccounts tx) (hv : k ≠ validatorAcct) :
    mapFind? (ApplyTransaction B tx).1 k = mapFind? B k := by
  have h1 : k ∉ instrAccounts tx.Instructions :=
    fun h => hk (mem_touchedAccounts_of_mem_instrAccounts tx k h)
  have h2 : ¬ tx.Fee.Payer = k := fun h => hk (h ▸ payer_mem_touchedAccounts tx)
  have h3 : ¬ validatorAcct = k := fun h => hv h.symm
  rw [mapFind?_applyTransaction, mapFind?_postFee]
  simp [h1, h2, h3]

/-- A transaction that does not touch the validator account credits it the fee. -/
theorem mapFind?_applyTransaction_validator (B : Balances) (tx : Transaction)
    (hv : validatorAcct ∉ touchedAccounts tx) :
    mapFind? (ApplyTransaction B tx).1 validatorAcct
      = some (add64 (mapGet B validatorAcct) tx.Fee.Amount) := by
  have h1 : validatorAcct ∉ instrAccounts tx.Instructions :=
    fun h => hv (mem_touchedAccounts_of_mem_instrAccounts tx _ h)
  have h2 : ¬ tx.Fee.Payer = validatorAcct := fun h => hv (h ▸ payer_mem_touchedAccounts tx)
  rw [mapFind?_applyTransaction, mapFind?_postFee]
  simp [h1, h2]

theorem calculateChange_congr (B1 B2 : Balances) (tx : Transaction)
    (h : AgreeOn (referencedAccounts tx) B1 B2) (inst : Instruction)
    (hi : inst ∈ tx.Instructions) :
    CalculateChange B1 inst.Change = CalculateChange B2 inst.Change := by
  unfold CalculateChange
  by_cases hd : inst.Change.IsDirectValue = true
  · simp [hd]
  · by_cases hr : inst.Change.IsAccountReference = true
    · have hmem : inst.Change.Account ∈ referencedAccounts tx := by
        unfold referencedAccounts
        rw [List.mem_map]
        refine ⟨inst, ?_, rfl⟩
        rw [List.mem_filter]
        exact ⟨hi, by simp [hd, hr]⟩
      rw [h _ hmem]
    · simp [hd, hr]

theorem resolvedValues_congr (B1 B2 : Balances) (l : List Instruction)
    (h : ∀ inst ∈ l, CalculateChange B1 inst.Change = CalculateChange B2 inst.Change) :
    resolvedValues B1 l = resolvedValues B2 l := by
  unfold resolvedValues
  apply List.map_congr_left
  intro inst hi
  simp [resolvedValue, h inst hi]

theorem netDelta_congr (B1 B2 : Balances) (l : List Instruction) (k : String)
    (h : ∀ inst ∈ l, CalculateChange B1 inst.Change = CalculateChange B2 inst.Change) :
    netDelta B1 l k = netDelta B2 l k := by
  unfold netDelta
  rw [resolvedValues_congr B1 B2]
  intro inst hi
  exact h inst (List.mem_of_mem_filter hi)

theorem instructionsAdmissible_congr (B1 B2 : Balances) (tx : Transaction)
    (href : AgreeOn (referencedAccounts tx) B1 B2)
    (hacc : AgreeOn (instrAccounts tx.Instructions) B1 B2) :
    InstructionsAdmissible B1 tx ↔ InstructionsAdmissible B2 tx := by
  have hc := calculateChange_congr B1 B2 tx href
  have hres : ∀ inst ∈ tx.Instructions, (resolves B1 inst.Change ↔ resolves B2 inst.Change) := by
    intro inst hi
    simp [resolves, hc inst hi]
  unfold InstructionsAdmissible
  rw [resolvedValues_congr B1 B2 tx.Instructions hc]
  constructor
  · rintro ⟨h1, h2, h3⟩
    refine ⟨fun inst hi => (hres inst hi).mp (h1 inst hi), h2, ?_⟩
    intro k hk
    rw [← netDelta_congr B1 B2 tx.Instructions k hc, ← mapGet_eq_of_mapFind?_eq (hacc k hk)]
    exact h3 k hk
  · rintro ⟨h1, h2, h3⟩
    refine ⟨fun inst hi => (hres inst hi).mpr (h1 inst hi), h2, ?_⟩
    intro k hk
    rw [netDelta_congr B1 B2 tx.Instructions k hc, mapGet_eq_of_mapFind?_eq (hacc k hk)]
    exact h3 k hk

theorem postFee_agreeOn (B1 B2 : Balances) (tx : Transaction) (S : List String)
    (hS : AgreeOn S B1 B2) (hp : mapFind? B1 tx.Fee.Payer = mapFind? B2 tx.Fee.Payer)
    (hv : validatorAcct ∉ S) :
    AgreeOn S (postFee B1 tx) (postFee B2 tx) := by
  intro k hk
  have h3 : ¬ validatorAcct = k := fun h => hv (h ▸ hk)
  rw [mapFind?_postFee, mapFind?_postFee]
  simp only [h3, if_false]
  rw [mapGet_eq_of_mapFind?_eq hp, hS k hk]

/-- The effect of `ApplyTransaction` on the accounts a transaction touches depends only
on the entries of the accounts it touches or references, provided the validator
account is not among them. -/
theorem mapFind?_applyTransaction_congr (B1 B2 : Balances) (tx : Transaction)
    (ht : AgreeOn (touchedAccounts tx) B1 B2)
    (hr : AgreeOn (referencedAccounts tx) B1 B2)
    (hvt : validatorAcct ∉ touchedAccounts tx)
    (hvr : validatorAcct ∉ referencedAccounts tx)
    (k : String) (hk : k ∈ touchedAccounts tx) :
    mapFind? (ApplyTransaction B1 tx).1 k = mapFind? (ApplyTransaction B2 tx).1 k := by
  have hp := ht _ (payer_mem_touchedAccounts tx)
  have hPt := postFee_agreeOn B1 B2 tx _ ht hp hvt
  have hPr := postFee_agreeOn B1 B2 tx _ hr hp hvr
  have hPi : AgreeOn (instrAccounts tx.Instructions) (postFee B1 tx) (postFee B2 tx) :=
    fun a ha => hPt a (mem_touchedAccounts_of_mem_instrAccounts tx a ha)
  have hadm := instructionsAdmissible_congr (postFee B1 tx) (postFee B2 tx) tx hPr hPi
  have hval : ValidateTransactionChanges (postFee B1 tx) tx = none
      ↔ ValidateTransactionChanges (postFee B2 tx) tx = none := by
    rw [validateTransactionChanges_eq_none_iff, validateTransactionChanges_eq_none_iff]
    exact hadm
  have hnet := netDelta_congr (postFee B1 tx) (postFee B2 tx) tx.Instructions k
    (calculateChange_congr (postFee B1 tx) (postFee B2 tx) tx hPr)
  rw [mapFind?_applyTransaction, mapFind?_applyTransaction, hnet,
    mapGet_eq_of_mapFind?_eq (hPt k hk), hPt k hk]
  by_cases h2 : ValidateTransactionChanges (postFee B2 tx) tx = none
  · simp [h2, hval.mpr h2]
  · have h1 : ¬ ValidateTransactionChanges (postFee B1 tx) tx = none := fun h => h2 (hval.mp h)
    simp [h1, h2]

/-- Two transactions commute when their touched sets are disjoint, neither touches or
references the validator account, and neither references an account the other
touches. -/
theorem applyTransaction_comm_of_isolated (B : Balances) (a b : Transaction)
    (hdisj : List.Disjoint (touchedAccounts a) (touchedAccounts b))
    (hva : validatorAcct ∉ touchedAccounts a ++ referencedAccounts a)
    (hvb : validatorAcct ∉ touchedAccounts b ++ referencedAccounts b)
    (hab : List.Disjoint (referencedAccounts a) (touchedAccounts b))
    (hba : List.Disjoint (referencedAccounts b) (touchedAccounts a)) (k : String) :
    mapFind? (ApplyTransaction (ApplyTransaction B a).1 b).1 k
      = mapFind? (ApplyTransaction (ApplyTransaction B b).1 a).1 k := by
  have hvat : validatorAcct ∉ touchedAccounts a := fun h => hva (List.mem_append_left _ h)
  have hvar : validatorAcct ∉ referencedAccounts a := fun h => hva (List.mem_append_right _ h)
  have hvbt : validatorAcct ∉ touchedAccounts b := fun h => hvb (List.mem_append_left _ h)
  have hvbr : validatorAcct ∉ referencedAccounts b := fun h => hvb (List.mem_append_right _ h)
  -- what `b` leaves alone agrees with the start table, and likewise for `a`
  have hBa : AgreeOn (touchedAccounts a) (ApplyTransaction B b).1 B := fun x hx =>
    mapFind?_applyTransaction_frame B b x (fun h => hdisj hx h) (fun h => hvat (h ▸ hx))
  have hBar : AgreeOn (referencedAccounts a) (ApplyTransaction B b).1 B := fun x hx =>
    mapFind?_applyTransaction_frame B b x (fun h => hab hx h) (fun h => hvar (h ▸ hx))
  have hBb : AgreeOn (touchedAccounts b) (ApplyTransaction B a).1 B := fun x hx =>
    mapFind?_applyTransaction_frame B a x (fun h => hdisj h hx) (fun h => hvbt (h ▸ hx))
  have hBbr : AgreeOn (referencedAccounts b) (ApplyTransaction B a).1 B := fun x hx =>
    mapFind?_applyTransaction_frame B a x (fun h => hba hx h) (fun h => hvbr (h ▸ hx))
  by_cases hkv : k = validatorAcct
  · subst hkv
    rw [mapFind?_applyTransaction_validator _ b hvbt, mapFind?_applyTransaction_validator _ a hvat]
    have h1 : mapGet (ApplyTransaction B a).1 validatorAcct
        = add64 (mapGet B validatorAcct) a.Fee.Amount := by
      simp [mapGet, mapFind?_applyTransaction_validator B a hvat]
    have h2 : mapGet (ApplyTransaction B b).1 validatorAcct
        = add64 (mapGet B validatorAcct) b.Fee.Amount := by
      simp [mapGet, mapFind?_applyTransaction_validator B b hvbt]
    rw [h1, h2, add64_right_comm]
  · by_cases hka : k ∈ touchedAccounts a
    · have hkb : k ∉ touchedAccounts b := fun h => hdisj hka h
      rw [mapFind?_applyTransaction_frame _ b k hkb hkv]
      exact (mapFind?_applyTransaction_congr _ B a hBa hBar hvat hvar k hka).symm
    · by_cases hkb : k ∈ touchedAccounts b
      · rw [mapFind?_applyTransaction_frame _ a k hka hkv]
        exact mapFind?_applyTransaction_congr _ B b hBb hBbr hvbt hvbr k hkb
      · rw [mapFind?_applyTransaction_frame _ b k hkb hkv,
          mapFind?_applyTransaction_frame _ a k hka hkv,
          mapFind?_applyTransaction_frame _ a k hka hkv,
          mapFind?_applyTransaction_frame _ b k hkb hkv]

theorem disjoint_of_forall_not_mem {l1 l2 : List String} (h : ∀ x ∈ l1, x ∉ l2) :
    List.Disjoint l1 l2 :=
  fun x h1 h2 => h x h1 h2

/-! ## Non-negativity -/

theorem forall_mapFind?_of_forall_mem (Q : Int → Prop) (B : Balances)
    (h : ∀ e ∈ B, Q e.2) : ∀ k v, mapFind? B k = some v → Q v := by
  induction B with
  | nil =>
    intro k v hf
    simp [mapFind?] at hf
  | cons e rest ih =>
    obtain ⟨k0, v0⟩ := e
    intro k v hf
    by_cases h0 : k0 = k
    · simp only [mapFind?, h0, if_true, Option.some.injEq] at hf
      subst hf
      exact h (k0, v0) (List.mem_cons_self _ _)
    · simp only [mapFind?, h0, if_false] at hf
      exact ih (fun e he => h e (List.mem_cons_of_mem _ he)) k v hf

theorem mapGet_nonneg {B : Balances} (h : NonNegative B) (k : String) : 0 ≤ mapGet B k := by
  unfold mapGet
  cases hf : mapFind? B k with
  | none => simp
  | some v => simpa using h k v hf

theorem mapGet_isInt64 {B : Balances} (h : InRange B) (k : String) : IsInt64 (mapGet B k) := by
  unfold mapGet
  cases hf : mapFind? B k with
  | none =>
    simp only [Option.getD_none]
    decide
  | some v => simpa using h k v hf

/-- C7, counterexample. Every balance of the table alice 1, validator 9223372036854775807
is a non-negative `int64` and "alice" can afford the fee 1, yet after `ApplyTransaction`
the validator account holds -9223372036854775808: the fee credit wraps around. -/
theorem applyTransaction_validator_wraps :
    NonNegative saturatedTable ∧ InRange saturatedTable ∧
    0 ≤ idleTx.Fee.Amount ∧ idleTx.Fee.Amount ≤ mapGet saturatedTable idleTx.Fee.Payer ∧
    (ApplyTransaction saturatedTable idleTx).1
      = [("alice", 0), ("validator", -9223372036854775808)] ∧
    ¬ NonNegative (ApplyTransaction saturatedTable idleTx).1 := by
  refine ⟨forall_mapFind?_of_forall_mem _ _ (by decide),
    forall_mapFind?_of_forall_mem _ _ (by decide), by decide, by decide, by decide, ?_⟩
  intro h
  exact absurd (h "validator" (-9223372036854775808) (by decide)) (by decide)

/-- C7, amended. On a table of non-negative `int64` balances, for a transaction with
a non-negative fee that its payer can afford, every balance after `ApplyTransaction`
is non-negative provided the fee credit does not overflow: the payer is the validator
account itself, or the validator balance plus the fee is at most the largest `int64`. -/
theorem applyTransaction_nonneg (B : Balances) (tx : Transaction)
    (hrange : InRange B) (hnn : NonNegative B)
    (hfee : 0 ≤ tx.Fee.Amount) (hpay : tx.Fee.Amount ≤ mapGet B tx.Fee.Payer)
    (hcredit : tx.Fee.Payer = validatorAcct ∨
      mapGet B validatorAcct + tx.Fee.Amount ≤ maxInt64) :
    NonNegative (ApplyTransaction B tx).1 := by
  intro k v h
  rw [mapFind?_applyTransaction] at h
  by_cases hc : ValidateTransactionChanges (postFee B tx) tx = none
      ∧ k ∈ instrAccounts tx.Instructions
  · rw [if_pos hc] at h
    have hadm := (validateTransactionChanges_eq_none_iff (postFee B tx) tx).mp hc.1
    have h3 := hadm.2.2 k hc.2
    simp only [Option.some.injEq] at h
    rw [← h]
    exact h3
  · rw [if_neg hc, mapFind?_postFee] at h
    have hp0 := mapGet_nonneg hnn tx.Fee.Payer
    have hpr := mapGet_isInt64 hrange tx.Fee.Payer
    have hv0 := mapGet_nonneg hnn validatorAcct
    unfold IsInt64 minInt64 maxInt64 at hpr
    by_cases h1 : validatorAcct = k
    · rw [if_pos h1] at h
      by_cases h2 : tx.Fee.Payer = validatorAcct
      · rw [if_pos h2] at h
        simp only [Option.some.injEq] at h
        rw [← h]
        unfold add64 sub64 wrap64
        omega
      · rw [if_neg h2] at h
        simp only [Option.some.injEq] at h
        rw [← h]
        rcases hcredit with hcr | hcr
        · exact absurd hcr h2
        · unfold maxInt64 at hcr
          unfold add64 wrap64
          omega
    · rw [if_neg h1] at h
      by_cases h2 : tx.Fee.Payer = k
      · rw [if_pos h2] at h
        simp only [Option.some.injEq] at h
        rw [← h]
        unfold sub64 wrap64
        omega
      · rw [if_neg h2] at h
        exact hnn k v h

/-- C7, amended, at a concrete input: the sample transaction applied in full on
alice 11, validator 0 leaves no negative balance. -/
theorem applyTransaction_nonneg_witness :
    (ApplyTransaction fundedTable sampleTx).1
      = [("alice", 0), ("validator", 1), ("bob", 2), ("carol", 8)] ∧
    NonNegative (ApplyTransaction fundedTable sampleTx).1 :=
  ⟨by decide,
    applyTransaction_nonneg fundedTable sampleTx
      (forall_mapFind?_of_forall_mem _ _ (by decide))
      (forall_mapFind?_of_forall_mem _ _ (by decide))
      (by decide) (by decide) (Or.inr (by decide))⟩

/-! ## Conservation and the sample transaction at admission -/

theorem resolvedValues_direct (B : Balances) (account : String) (v : Int)
    (rest : List Instruction) :
    resolvedValues B (Instruction.mk account (direct v) :: rest)
      = v :: resolvedValues B rest := by
  simp [resolvedValues, resolvedValue, CalculateChange, direct, Change.IsDirectValue,
    Change.GetDirectValue]

/-- C9, counterexample. On a table where "alice" holds 10 the sample transaction (fee 1
from alice, alice -10, bob +2, carol +8) is accepted by `ValidateTransaction`, which
compares the balance with the fee and with the debit separately. -/
theorem validateTransaction_sample_accepted_at_ten :
    ValidateTransaction tenTable sampleTx = true ∧ ¬ (11 ≤ mapGet tenTable "alice") := by
  decide

/-- C9, amended. `ValidateTransaction` accepts the sample transaction only if "alice"
holds at least 10: the balance must cover the debit of 10 and, separately, the fee
of 1, not their sum. -/
theorem validateTransaction_sample_only_if (B : Balances)
    (h : ValidateTransaction B sampleTx = true) : 10 ≤ mapGet B "alice" := by
  have hall := (validateTransaction_eq_true_iff B sampleTx).mp h
  have hfee : (1 : Int) ≤ mapGet B "alice" := hall.1
  have hmem : "alice" ∈ instrAccounts sampleTx.Instructions := by decide
  have hneg := hall.2.2.2 "alice" hmem
  have hnet : netDelta B sampleTx.Instructions "alice" = -10 := by
    have hf : sampleTx.Instructions.filter (fun inst => decide (inst.Account = "alice"))
        = [Instruction.mk "alice" (direct (-10))] := by decide
    unfold netDelta
    rw [hf, resolvedValues_direct]
    have hnil : resolvedValues B [] = [] := rfl
    rw [hnil]
    decide
  rw [hnet] at hneg
  unfold add64 wrap64 at hneg
  omega

/-- C9, amended, at a concrete input: "alice" holding exactly 10 is accepted. -/
theorem validateTransaction_sample_only_if_witness :
    ValidateTransaction tenTable sampleTx = true ∧ 10 ≤ mapGet tenTable "alice" :=
  ⟨by decide, validateTransaction_sample_only_if tenTable (by decide)⟩

/-! ## Round extraction: partition and greedy order -/

theorem selectBy_sublist (keep : Bool) (l : List Transaction) (mask : List Bool) :
    List.Sublist (selectBy keep l mask) l := by
  induction l generalizing mask with
  | nil => cases mask <;> simp [selectBy]
  | cons tx rest ih =>
    cases mask with
    | nil => simp [selectBy]
    | cons b bs =>
      by_cases h : b = keep
      · simp only [selectBy, h, if_true]
        exact List.Sublist.cons₂ tx (ih bs)
      · simp only [selectBy, h, if_false]
        exact List.Sublist.cons tx (ih bs)

/-- The loop of `GetPendingTransactions` sends every scanned transaction to exactly one
of `batch` and `remaining`, at the tail, in scan order. -/
theorem roundLoop_partition (maxCount : Int) (pending : List Transaction)
    (used : List String) (batch remaining : List Transaction) :
    ∃ mask : List Bool, mask.length = pending.length ∧
      (roundLoop maxCount pending used batch remaining).1
        = batch ++ selectBy true pending mask ∧
      (roundLoop maxCount pending used batch remaining).2
        = remaining ++ selectBy false pending mask := by
  induction pending generalizing used batch remaining with
  | nil => exact ⟨[], rfl, by simp [roundLoop, selectBy], by simp [roundLoop, selectBy]⟩
  | cons tx rest ih =>
    unfold roundLoop
    by_cases hfull : (batch.length : Int) ≥ maxCount
    · simp only [hfull, if_true]
      obtain ⟨mask, hlen, h1, h2⟩ := ih used batch (remaining ++ [tx])
      exact ⟨false :: mask, by simp [hlen], by simp [selectBy, h1], by simp [selectBy, h2]⟩
    · simp only [hfull, if_false]
      by_cases hc : (touchedAccounts tx).any (fun acct => decide (acct ∈ used)) = true
      · simp only [hc, if_true]
        obtain ⟨mask, hlen, h1, h2⟩ := ih used batch (remaining ++ [tx])
        exact ⟨false :: mask, by simp [hlen], by simp [selectBy, h1], by simp [selectBy, h2]⟩
      · simp only [hc]
        obtain ⟨mask, hlen, h1, h2⟩ :=
          ih (used ++ touchedAccounts tx) (batch ++ [tx]) remaining
        exact ⟨true :: mask, by simp [hlen], by simp [selectBy, h1], by simp [selectBy, h2]⟩

/-- C11. `GetPendingTransactions` never drops, duplicates or reorders a queued
transaction: the round and the new pending list are both sublists of the old pending
list, and one mask over the positions of the old list sends each position to exactly
one of them (true to the round, false to the new pending list). -/
theorem getPendingTransactions_partition (pendingTxs : List Transaction) (maxCount : Int) :
    List.Sublist (GetPendingTransactions pendingTxs maxCount).1 pendingTxs ∧
    List.Sublist (GetPendingTransactions pendingTxs maxCount).2 pendingTxs ∧
    ∃ mask : List Bool, mask.length = pendingTxs.length ∧
      (GetPendingTransactions pendingTxs maxCount).1 = selectBy true pendingTxs mask ∧
      (GetPendingTransactions pendingTxs maxCount).2 = selectBy false pendingTxs mask := by
  have hmask : ∃ mask : List Bool, mask.length = pendingTxs.length ∧
      (GetPendingTransactions pendingTxs maxCount).1 = selectBy true pendingTxs mask ∧
      (GetPendingTransactions pendingTxs maxCount).2 = selectBy false pendingTxs mask := by
    unfold GetPendingTransactions
    by_cases h : pendingTxs.length = 0
    · have hnil : pendingTxs = [] := List.length_eq_zero.mp h
      subst hnil
      exact ⟨[], rfl, by simp [selectBy], by simp [selectBy]⟩
    · simp only [h, if_false]
      obtain ⟨mask, hlen, h1, h2⟩ := roundLoop_partition maxCount pendingTxs [] [] []
      exact ⟨mask, hlen, by simpa using h1, by simpa using h2⟩
  obtain ⟨mask, hlen, h1, h2⟩ := hmask
  refine ⟨?_, ?_, mask, hlen, h1, h2⟩
  · rw [h1]
    exact selectBy_sublist true pendingTxs mask
  · rw [h2]
    exact selectBy_sublist false pendingTxs mask

theorem roundLoop_eq_foldl (maxCount : Int) (pending : List Transaction)
    (used : List String) (batch remaining : List Transaction)
    (hused : ∀ x, x ∈ used ↔ ∃ s ∈ batch, x ∈ touchedAccounts s) :
    roundLoop maxCount pending used batch remaining
      = pending.foldl (specStep maxCount) (batch, remaining) := by
  induction pending generalizing used batch remaining with
  | nil => simp [roundLoop]
  | cons tx rest ih =>
    have hany : (touchedAccounts tx).any (fun acct => decide (acct ∈ used))
        = (touchedAccounts tx).any
            (fun x => batch.any (fun s => decide (x ∈ touchedAccounts s))) := by
      rw [Bool.eq_iff_iff]
      simp only [List.any_eq_true, decide_eq_true_eq]
      constructor
      · rintro ⟨x, hx, h⟩
        exact ⟨x, hx, (hused x).mp h⟩
      · rintro ⟨x, hx, h⟩
        exact ⟨x, hx, (hused x).mpr h⟩
    unfold roundLoop
    simp only [List.foldl_cons]
    by_cases hfull : (batch.length : Int) ≥ maxCount
    · have hd : specStep maxCount (batch, remaining) tx = (batch, remaining ++ [tx]) := by
        simp [specStep, specDeferred, hfull]
      simp only [hfull, if_true, hd]
      exact ih used batch (remaining ++ [tx]) hused
    · simp only [hfull, if_false]
      by_cases hc : (touchedAccounts tx).any (fun acct => decide (acct ∈ used)) = true
      · have hd : specStep maxCount (batch, remaining) tx = (batch, remaining ++ [tx]) := by
          simp only [specStep, specDeferred, ← hany, hc, Bool.or_true, if_true]
        simp only [hc, if_true, hd]
        exact ih used batch (remaining ++ [tx]) hused
      · have hd : specStep maxCount (batch, remaining) tx = (batch ++ [tx], remaining) := by
          have hc2 : (touchedAccounts tx).any (fun acct => decide (acct ∈ used)) = false := by
            simpa using hc
          simp [specStep, specDeferred, ← hany, hc2, hfull]
        simp only [hc, hd]
        apply ih
        intro x
        simp only [List.mem_append, List.mem_singleton]
        constructor
        · rintro (h | h)
          · obtain ⟨s, hs, hx⟩ := (hused x).mp h
            exact ⟨s, Or.inl hs, hx⟩
          · exact ⟨tx, Or.inr rfl, h⟩
        · rintro ⟨s, hs | hs, hx⟩
          · exact Or.inl ((hused x).mpr ⟨s, hs, hx⟩)
          · subst hs
            exact Or.inr hx

/-- C19. Greedy single-pass selection: `GetPendingTransactions` returns the round and
the deferred list of the scan in arrival order that defers a transaction exactly when
the round already holds `maxCount` members or the transaction touches an account of a
transaction selected before it, and selects it otherwise.  Consequently, when
`maxCount` is at least 1, the first pending transaction heads the round. -/
theorem getPendingTransactions_greedy (pendingTxs : List Transaction) (maxCount : Int) :
    GetPendingTransactions pendingTxs maxCount = specRound maxCount pendingTxs ∧
    (1 ≤ maxCount → ∀ tx rest, pendingTxs = tx :: rest →
      ∃ others, (GetPendingTransactions pendingTxs maxCount).1 = tx :: others) := by
  constructor
  · unfold GetPendingTransactions specRound
    by_cases h : pendingTxs.length = 0
    · have hnil : pendingTxs = [] := List.length_eq_zero.mp h
      subst hnil
      simp
    · simp only [h, if_false]
      exact roundLoop_eq_foldl maxCount pendingTxs [] [] [] (by simp)
  · intro hmax tx rest hL
    subst hL
    have hfull : ¬ (((([] : List Transaction).length : Nat) : Int) ≥ maxCount) := by
      simp only [List.length_nil, Nat.cast_zero]
      omega
    obtain ⟨mask, _, h1, _⟩ :=
      roundLoop_partition maxCount rest ([] ++ touchedAccounts tx) ([] ++ [tx]) []
    refine ⟨selectBy true rest mask, ?_⟩
    unfold GetPendingTransactions
    simp only [List.length_cons, Nat.succ_ne_zero, if_false]
    unfold roundLoop
    simp only [hfull, if_false]
    have hc : (touchedAccounts tx).any (fun acct => decide (acct ∈ ([] : List String))) = false := by
      simp
    simp only [hc]
    simpa using h1

/-- C19 at a concrete queue: of three pending transactions the second shares "alice"
with the first and is deferred, the third is selected, and the first heads the round. -/
theorem getPendingTransactions_greedy_witness :
    GetPendingTransactions [sampleTx, referenceTx, otherTx] 100
      = ([sampleTx, otherTx], [referenceTx]) ∧
    specRound 100 [sampleTx, referenceTx, otherTx] = ([sampleTx, otherTx], [referenceTx]) ∧
    ∃ others, (GetPendingTransactions [sampleTx, referenceTx, otherTx] 100).1
      = sampleTx :: others :=
  ⟨by decide, by decide,
    (getPendingTransactions_greedy [sampleTx, referenceTx, otherTx] 100).2 (by decide)
      sampleTx [referenceTx, otherTx] rfl⟩

/-! ## The change calculator -/

theorem wrap64_sum64 (i : Int) (l : List Int) : wrap64 (sum64 i l) = wrap64 (i + l.sum) := by
  induction l generalizing i with
  | nil => simp [sum64]
  | cons v rest ih =>
    have h := ih (add64 i v)
    simp only [sum64, List.foldl_cons, List.sum_cons] at h ⊢
    rw [h]
    unfold add64 wrap64
    omega

theorem isInt64_sum64 (i : Int) (l : List Int) (h : IsInt64 i) : IsInt64 (sum64 i l) := by
  induction l generalizing i with
  | nil => simpa [sum64] using h
  | cons v rest ih =>
    simp only [sum64, List.foldl_cons]
    exact ih (add64 i v) (isInt64_wrap64 _)

theorem sum64_zero_eq (l : List Int) : sum64 0 l = wrap64 l.sum := by
  have h1 := wrap64_sum64 0 l
  rw [wrap64_of_isInt64 (isInt64_sum64 0 l (by decide))] at h1
  simpa using h1

theorem mapSum_mapSet (m : Int64Map) (k : String) (x : Int) :
    mapSum (mapSet m k x) = mapSum m - mapGet m k + x := by
  induction m with
  | nil => simp [mapSum, mapSet, mapGet, mapFind?]
  | cons e rest ih =>
    obtain ⟨k0, v0⟩ := e
    by_cases h : k0 = k
    · simp only [mapSum, mapSet, mapGet, mapFind?, h, if_true, List.map_cons, List.sum_cons,
        Option.getD_some]
      omega
    · have ih2 : (List.map Prod.snd (mapSet rest k x)).sum
          = (List.map Prod.snd rest).sum - (mapFind? rest k).getD 0 + x := by
        simpa [mapSum, mapGet] using ih
      simp only [mapSum, mapSet, mapGet, mapFind?, h, if_false, List.map_cons, List.sum_cons,
        ih2]
      omega

theorem wrap64_mapSum_foldChanges (B : Balances) (instrs : List Instruction)
    (acc : Int64Map) :
    wrap64 (mapSum (foldChanges B instrs acc))
      = wrap64 (mapSum acc + (resolvedValues B instrs).sum) := by
  induction instrs generalizing acc with
  | nil => simp [foldChanges, resolvedValues]
  | cons inst rest ih =>
    have h := ih (mapSet acc inst.Account
      (add64 (mapGet acc inst.Account) (resolvedValue B inst.Change)))
    rw [mapSum_mapSet] at h
    simp only [foldChanges, resolvedValues, List.map_cons, List.sum_cons] at h ⊢
    rw [h]
    unfold add64 wrap64
    omega

theorem calcLoop_first_failure (B : Balances) (instrs : List Instruction) (i0 : Nat)
    (acc : Int64Map) (t : Int) (h : ∃ inst ∈ instrs, ¬ resolves B inst.Change) :
    ∃ i inst err, instrs[i]? = some inst ∧ (CalculateChange B inst.Change).2 = some err ∧
      (∀ j x, j < i → instrs[j]? = some x → resolves B x.Change) ∧
      calcLoop B instrs i0 acc t = (none, 0, some (InstructionError.mk (i0 + i) err)) := by
  induction instrs generalizing i0 acc t with
  | nil =>
    obtain ⟨inst, hi, _⟩ := h
    simp at hi
  | cons inst rest ih =>
    rcases hc : CalculateChange B inst.Change with ⟨val, err⟩
    cases err with
    | some e =>
      refine ⟨0, inst, e, by simp, by simp [hc], ?_, by simp [calcLoop, hc]⟩
      intro j x hj
      omega
    | none =>
      have hr : resolves B inst.Change := by simp [resolves, hc]
      have hrest : ∃ x ∈ rest, ¬ resolves B x.Change := by
        obtain ⟨x, hx, hnx⟩ := h
        rcases List.mem_cons.mp hx with h1 | h1
        · rw [h1] at hnx
          exact absurd hr hnx
        · exact ⟨x, h1, hnx⟩
      obtain ⟨i, x, e, hget, herr, hbefore, hres⟩ := ih (i0 + 1)
        (mapSet acc inst.Account (add64 (mapGet acc inst.Account) val)) (add64 t val) hrest
      refine ⟨i + 1, x, e, by simpa using hget, herr, ?_, ?_⟩
      · intro j y hj hy
        cases j with
        | zero =>
          have : inst = y := by simpa using hy
          rw [← this]
          exact hr
        | succ j2 =>
          exact hbefore j2 y (by omega) (by simpa using hy)
      · simp only [calcLoop, hc, hres]
        have : i0 + 1 + i = i0 + (i + 1) := by omega
        rw [this]

/-- C14. When some change fails to resolve, `CalculateInstructionChanges` returns a nil
map, total 0 and an error carrying the index of the first instruction whose change
fails, with the error of that change; and it returns an error only when some change
fails to resolve. -/
theorem calculateInstructionChanges_error (B : Balances) (instrs : List Instruction) :
    ((∃ inst ∈ instrs, ¬ resolves B inst.Change) →
      ∃ i inst err, instrs[i]? = some inst ∧
        (CalculateChange B inst.Change).2 = some err ∧
        (∀ j x, j < i → instrs[j]? = some x → resolves B x.Change) ∧
        CalculateInstructionChanges B instrs
          = (none, 0, some (InstructionError.mk i err))) ∧
    ((CalculateInstructionChanges B instrs).2.2 ≠ none →
      ∃ inst ∈ instrs, ¬ resolves B inst.Change) := by
  constructor
  · intro h
    obtain ⟨i, inst, err, h1, h2, h3, h4⟩ := calcLoop_first_failure B instrs 0 [] 0 h
    refine ⟨i, inst, err, h1, h2, h3, ?_⟩
    unfold CalculateInstructionChanges
    simpa using h4
  · intro herr
    by_contra hno
    have hall : ∀ inst ∈ instrs, resolves B inst.Change := by
      intro inst hi
      by_contra hn
      exact hno ⟨inst, hi, hn⟩
    apply herr
    unfold CalculateInstructionChanges
    rw [calcLoop_of_resolves B instrs 0 [] 0 hall]

/-- C14 at a concrete input: the instructions at indices 1 and 2 both carry an invalid
sign; the error names index 1. -/
theorem calculateInstructionChanges_error_witness :
    CalculateInstructionChanges bobTable badSignInstrs
      = (none, 0, some (InstructionError.mk 1 (ChangeError.invalidSign "up"))) ∧
    ∃ i inst err, badSignInstrs[i]? = some inst ∧
      (CalculateChange bobTable inst.Change).2 = some err ∧
      (∀ j x, j < i → badSignInstrs[j]? = some x → resolves bobTable x.Change) ∧
      CalculateInstructionChanges bobTable badSignInstrs
        = (none, 0, some (InstructionError.mk i err)) :=
  ⟨by decide,
    (calculateInstructionChanges_error bobTable badSignInstrs).1
      ⟨Instruction.mk "bob" (ref "alice" "up"), by decide, by decide⟩⟩

/-! ## Structural validation and ingestion -/

theorem accountLoop_eq_none_iff (instrs : List Instruction) (i : Nat) :
    accountLoop instrs i = none ↔ ∀ inst ∈ instrs, inst.Account ≠ "" := by
  induction instrs generalizing i with
  | nil => simp [accountLoop]
  | cons inst rest ih =>
    by_cases h : inst.Account = ""
    · simp [accountLoop, h]
    · simp [accountLoop, h, ih]

/-- C15. `ValidateBasicStructure` returns a nil error exactly when the fee payer is
non-empty, the fee amount is positive, there is at least one instruction and every
instruction has a non-empty account.  The function takes the transaction alone: no
balance enters it. -/
theorem validateBasicStructure_iff (tx : Transaction) :
    tx.ValidateBasicStructure = none ↔
      tx.Fee.Payer ≠ "" ∧ 0 < tx.Fee.Amount ∧ tx.Instructions ≠ [] ∧
      ∀ inst ∈ tx.Instructions, inst.Account ≠ "" := by
  unfold Transaction.ValidateBasicStructure
  by_cases h1 : tx.Fee.Payer = ""
  · simp [h1]
  · by_cases h2 : tx.Fee.Amount ≤ 0
    · simp only [h1, h2, if_false, if_true]
      constructor
      · intro hc
        exact absurd hc (by simp)
      · rintro ⟨_, hpos, _⟩
        omega
    · by_cases h3 : tx.Instructions.length = 0
      · have hnil : tx.Instructions = [] := List.length_eq_zero.mp h3
        simp [h1, h2, h3, hnil]
      · have hne : tx.Instructions ≠ [] := fun hc => h3 (by simp [hc])
        simp only [h1, h2, h3, if_false, accountLoop_eq_none_iff]
        constructor
        · intro hall
          exact ⟨h1, by omega, hne, hall⟩
        · rintro ⟨_, _, _, hall⟩
          exact hall

/-- C16. Ingestion of a decoded transaction, the structural check of the listener
followed by `ProcessTransaction` on the table `B`: the transaction is appended to the
tail of the pending list exactly when it passes `ValidateBasicStructure` and
`ValidateTransaction`, and then no invalid transaction is counted; a transaction
failing either check leaves the pending list as it was and raises `TotalInvalid` by
one. -/
theorem listenerOnDecoded_spec (B : Balances) (h : TransactionHandler) (tx : Transaction) :
    ((listenerOnDecoded B h tx).pendingTxs = h.pendingTxs ++ [tx] ↔
      tx.ValidateBasicStructure = none ∧ ValidateTransaction B tx = true) ∧
    (tx.ValidateBasicStructure = none ∧ ValidateTransaction B tx = true →
      (listenerOnDecoded B h tx).stats.TotalInvalid = h.stats.TotalInvalid) ∧
    (¬ (tx.ValidateBasicStructure = none ∧ ValidateTransaction B tx = true) →
      (listenerOnDecoded B h tx).pendingTxs = h.pendingTxs ∧
      (listenerOnDecoded B h tx).stats.TotalInvalid = add64 h.stats.TotalInvalid 1) := by
  have hne : h.pendingTxs ≠ h.pendingTxs ++ [tx] := by
    intro hc
    have := congrArg List.length hc
    simp at this
  cases hs : tx.ValidateBasicStructure with
  | some e =>
    have hval : listenerOnDecoded B h tx
        = TransactionHandler.mk h.pendingTxs h.stats.incReceived.incInvalid := by
      simp only [listenerOnDecoded, hs]
    have hno : ¬ (some e = none ∧ ValidateTransaction B tx = true) :=
      fun hc => absurd hc.1 (by simp)
    rw [hval]
    exact ⟨⟨fun hc => absurd hc hne, fun hc => absurd hc hno⟩,
      fun hc => absurd hc hno, fun _ => ⟨rfl, rfl⟩⟩
  | none =>
    cases hv : ValidateTransaction B tx with
    | false =>
      have hval : listenerOnDecoded B h tx
          = TransactionHandler.mk h.pendingTxs h.stats.incReceived.incInvalid := by
        simp only [listenerOnDecoded, hs, ProcessTransaction, hv]
        rfl
      have hno : ¬ ((none : Option StructureError) = none ∧ false = true) :=
        fun hc => absurd hc.2 (by simp)
      rw [hval]
      exact ⟨⟨fun hc => absurd hc hne, fun hc => absurd hc hno⟩,
        fun hc => absurd hc hno, fun _ => ⟨rfl, rfl⟩⟩
    | true =>
      have hval : listenerOnDecoded B h tx
          = TransactionHandler.mk (h.pendingTxs ++ [tx]) h.stats.incReceived := by
        simp only [listenerOnDecoded, hs, ProcessTransaction, hv]
        rfl
      rw [hval]
      exact ⟨⟨fun _ => ⟨rfl, rfl⟩, fun _ => rfl⟩, fun _ => rfl,
        fun hc => absurd ⟨rfl, rfl⟩ hc⟩

/-- C16 at concrete inputs: on alice 11 the sample transaction joins the queue behind
the entry already there; on alice 5 it is rejected and counted, the queue unchanged. -/
theorem listenerOnDecoded_spec_witness :
    listenerOnDecoded fundedTable busyHandler sampleTx
      = TransactionHandler.mk [otherTx, sampleTx] (TransactionStats.mk 10 1 7 1) ∧
    listenerOnDecoded feeOnlyTable busyHandler sampleTx
      = TransactionHandler.mk [otherTx] (TransactionStats.mk 10 1 8 1) ∧
    (listenerOnDecoded fundedTable busyHandler sampleTx).stats.TotalInvalid
      = busyHandler.stats.TotalInvalid ∧
    (listenerOnDecoded feeOnlyTable busyHandler sampleTx).pendingTxs = busyHandler.pendingTxs :=
  ⟨by decide, by decide,
    (listenerOnDecoded_spec fundedTable busyHandler sampleTx).2.1 (by decide),
    ((listenerOnDecoded_spec feeOnlyTable busyHandler sampleTx).2.2 (by decide)).1⟩

/-! ## Decoding a change -/

theorem unmarshalJSON_of_struct (f : Json → Option Int) (c : Change)
    (fields : List (String × Json)) :
    Change.UnmarshalJSON f c (Json.obj fields)
      = match structLoop fields "" "" true with
        | none => (c, some DecodeError.notNumberOrObject)
        | some (account, sign) =>
          if sign ≠ "plus" ∧ sign ≠ "minus" then (c, some (DecodeError.badSign sign))
          else (Change.mk account sign none, none) := by
  simp only [Change.UnmarshalJSON, unmarshalInt64, unmarshalFloat64, unmarshalStruct]

theorem structLoop_account_sign (a s : String) :
    structLoop [("account", Json.str a), ("sign", Json.str s)] "" "" true = some (a, s) := by
  have h1 : keyMatches "account" "account" = true := by decide
  have h2 : keyMatches "sign" "account" = false := by decide
  have h3 : keyMatches "sign" "sign" = true := by decide
  simp [structLoop, h1, h2, h3]

/-- C17. Decoding a change, for every conversion through `float64` and every receiver:
a bare JSON integer in `int64` range decodes to that direct value with empty account
and sign, so -10 decodes to the direct value -10; an object decoding to account `a`
and sign `s` with `s` "plus" or "minus" gives the account reference `(a, s)` with no
direct value, in particular the object with the string members account and sign; an
object whose sign is any other string is an error and leaves the receiver unchanged,
so the sign "up" fails. -/
theorem unmarshalJSON_spec (f : Json → Option Int) (c : Change) :
    (∀ n, IsInt64 n → Change.UnmarshalJSON f c (Json.int n) = (Change.mk "" "" (some n), none)) ∧
    Change.UnmarshalJSON f c (Json.int (-10)) = (direct (-10), none) ∧
    (∀ fields a s, structLoop fields "" "" true = some (a, s) → s = "plus" ∨ s = "minus" →
      Change.UnmarshalJSON f c (Json.obj fields) = (Change.mk a s none, none)) ∧
    (∀ a s, s = "plus" ∨ s = "minus" →
      Change.UnmarshalJSON f c (Json.obj [("account", Json.str a), ("sign", Json.str s)])
        = (Change.mk a s none, none)) ∧
    Change.UnmarshalJSON f c (Json.obj [("account", Json.str "bob"), ("sign", Json.str "plus")])
      = (ref "bob" "plus", none) ∧
    (∀ fields a s, structLoop fields "" "" true = some (a, s) → s ≠ "plus" → s ≠ "minus" →
      Change.UnmarshalJSON f c (Json.obj fields) = (c, some (DecodeError.badSign s))) ∧
    (∀ a s, s ≠ "plus" → s ≠ "minus" →
      Change.UnmarshalJSON f c (Json.obj [("account", Json.str a), ("sign", Json.str s)])
        = (c, some (DecodeError.badSign s))) ∧
    Change.UnmarshalJSON f c (Json.obj [("account", Json.str "bob"), ("sign", Json.str "up")])
      = (c, some (DecodeError.badSign "up")) := by
  have hint : ∀ n, IsInt64 n →
      Change.UnmarshalJSON f c (Json.int n) = (Change.mk "" "" (some n), none) := by
    intro n hn
    simp [Change.UnmarshalJSON, unmarshalInt64, hn]
  have hgood : ∀ fields a s, structLoop fields "" "" true = some (a, s) →
      s = "plus" ∨ s = "minus" →
      Change.UnmarshalJSON f c (Json.obj fields) = (Change.mk a s none, none) := by
    intro fields a s hdec hs
    rw [unmarshalJSON_of_struct, hdec]
    rcases hs with hs | hs <;> subst hs <;> simp
  have hbad : ∀ fields a s, structLoop fields "" "" true = some (a, s) →
      s ≠ "plus" → s ≠ "minus" →
      Change.UnmarshalJSON f c (Json.obj fields) = (c, some (DecodeError.badSign s)) := by
    intro fields a s hdec h1 h2
    rw [unmarshalJSON_of_struct, hdec]
    simp [h1, h2]
  refine ⟨hint, hint (-10) (by decide), hgood,
    fun a s hs => hgood _ a s (structLoop_account_sign a s) hs,
    hgood _ "bob" "plus" (structLoop_account_sign _ _) (Or.inl rfl), hbad,
    fun a s h1 h2 => hbad _ a s (structLoop_account_sign a s) h1 h2,
    hbad _ "bob" "up" (structLoop_account_sign _ _) (by decide) (by decide)⟩

/-- C18, the code at the failing input. An object with a valid sign and no account, or
an empty account, decodes without error to a change that is neither a direct value nor
an account reference, and `CalculateChange` fails on it with the neither-variant
error.  A successful decode never yields both variants. -/
theorem unmarshalJSON_neither_variant (f : Json → Option Int) (c : Change) (B : Balances) :
    Change.UnmarshalJSON f c (Json.obj [("sign", Json.str "plus")])
      = (Change.mk "" "plus" none, none) ∧
    Change.UnmarshalJSON f c (Json.obj [("account", Json.str ""), ("sign", Json.str "plus")])
      = (Change.mk "" "plus" none, none) ∧
    (Change.mk "" "plus" none).IsDirectValue = false ∧
    (Change.mk "" "plus" none).IsAccountReference = false ∧
    CalculateChange B (Change.mk "" "plus" none) = (0, some ChangeError.neitherVariant) ∧
    ∀ data, (Change.UnmarshalJSON f c data).2 = none →
      ¬ ((Change.UnmarshalJSON f c data).1.IsDirectValue = true ∧
         (Change.UnmarshalJSON f c data).1.IsAccountReference = true) := by
  have h1 : structLoop [("sign", Json.str "plus")] "" "" true = some ("", "plus") := by
    decide
  refine ⟨?_, ?_, by decide, by decide, ?_, ?_⟩
  · rw [unmarshalJSON_of_struct, h1]
    simp
  · rw [unmarshalJSON_of_struct, structLoop_account_sign]
    simp
  · simp [CalculateChange, Change.IsDirectValue, Change.IsAccountReference]
  · intro data hok
    unfold Change.UnmarshalJSON at hok ⊢
    cases hi : unmarshalInt64 data with
    | some num => simp [Change.IsDirectValue, Change.IsAccountReference]
    | none =>
      cases hf : unmarshalFloat64 f data with
      | some v => simp [Change.IsDirectValue, Change.IsAccountReference]
      | none =>
        cases hst : unmarshalStruct data with
        | none => simp [hi, hf, hst] at hok
        | some pr =>
          obtain ⟨account, sign⟩ := pr
          simp only [hi, hf, hst] at hok ⊢
          by_cases hsg : sign ≠ "plus" ∧ sign ≠ "minus"
          · simp [hsg] at hok
          · simp [hsg, Change.IsDirectValue]

/-! ## The ledger total -/

theorem wrap64_mapSum_applyChanges (P : Balances) (ch : Int64Map) :
    wrap64 (mapSum (applyChanges P ch)) = wrap64 (mapSum P + mapSum ch) := by
  induction ch generalizing P with
  | nil => simp [applyChanges, mapSum]
  | cons e rest ih =>
    obtain ⟨a, d⟩ := e
    have h := ih (mapSet P a (add64 (mapGet P a) d))
    rw [mapSum_mapSet] at h
    have hcons : mapSum ((a, d) :: rest) = d + mapSum rest := by
      simp [mapSum]
    simp only [applyChanges]
    rw [h, hcons]
    unfold add64 wrap64
    omega

theorem wrap64_mapSum_postFee (B : Balances) (tx : Transaction) :
    wrap64 (mapSum (postFee B tx)) = wrap64 (mapSum B) := by
  unfold postFee
  simp only
  rw [mapSum_mapSet, mapSum_mapSet]
  unfold add64 sub64 wrap64
  omega

/-- What `ApplyTransaction` does conserve is the ledger total modulo 2^64: for every
table and every transaction, fee-only or applied in full and whatever the payer, the
sum of all balances after the call and the sum before it reduce to the same `int64`. -/
theorem applyTransaction_conserves_total (B : Balances) (tx : Transaction) :
    wrap64 (mapSum (ApplyTransaction B tx).1) = wrap64 (mapSum B) := by
  have hP : mapSet (mapSet B tx.Fee.Payer (sub64 (mapGet B tx.Fee.Payer) tx.Fee.Amount))
      validatorAcct
      (add64 (mapGet (mapSet B tx.Fee.Payer (sub64 (mapGet B tx.Fee.Payer) tx.Fee.Amount))
        validatorAcct) tx.Fee.Amount) = postFee B tx := rfl
  rw [← wrap64_mapSum_postFee B tx]
  cases hv : ValidateTransactionChanges (postFee B tx) tx with
  | some e => simp [ApplyTransaction, hP, hv]
  | none =>
    have hadm := (validateTransactionChanges_eq_none_iff (postFee B tx) tx).mp hv
    have hloop := calcLoop_of_resolves (postFee B tx) tx.Instructions 0 [] 0 hadm.1
    have hzero : wrap64 (mapSum (foldChanges (postFee B tx) tx.Instructions [])) = 0 := by
      rw [wrap64_mapSum_foldChanges, ← hadm.2.1, sum64_zero_eq]
      simp [mapSum]
    simp only [ApplyTransaction, hP, hv, CalculateInstructionChanges, hloop, Option.getD_some]
    rw [wrap64_mapSum_applyChanges]
    unfold wrap64 at hzero ⊢
    omega

/-- C20, the code at the failing input. On the table alice 1, validator 0 the
transaction with fee 1 from alice and four credits of 4611686018427387904 is admitted
and passes the re-check, because the `int64` total of the credits wraps to 0; the
balances sum to 1 before `ApplyTransaction` and to 18446744073709551617 after it. -/
theorem applyTransaction_total_wraps :
    ValidateTransaction unitTable wrappingTx = true ∧
    (ApplyTransaction unitTable wrappingTx).1
      = [("alice", 0), ("validator", 1), ("bob", 4611686018427387904),
         ("carol", 4611686018427387904), ("dave", 4611686018427387904),
         ("erin", 4611686018427387904)] ∧
    mapSum unitTable = 1 ∧
    mapSum (ApplyTransaction unitTable wrappingTx).1 = 18446744073709551617 := by
  decide

/-! ## Commutativity for direct-value transactions -/

theorem referencedAccounts_eq_nil_of_direct (tx : Transaction)
    (h : ∀ inst ∈ tx.Instructions, inst.Change.IsDirectValue = true) :
    referencedAccounts tx = [] := by
  unfold referencedAccounts
  rw [List.map_eq_nil_iff, List.filter_eq_nil_iff]
  intro inst hi
  simp [h inst hi]

/-- C21. Restricted commutativity of application: two transactions with disjoint
touched-account sets, neither naming the validator account as fee payer or instruction
account, and all of whose changes are direct values, leave the same balance table,
account by account, whichever is applied first. -/
theorem applyTransaction_comm_direct (B : Balances) (a b : Transaction)
    (hdisj : List.Disjoint (touchedAccounts a) (touchedAccounts b))
    (hva : validatorAcct ∉ touchedAccounts a)
    (hvb : validatorAcct ∉ touchedAccounts b)
    (hda : ∀ inst ∈ a.Instructions, inst.Change.IsDirectValue = true)
    (hdb : ∀ inst ∈ b.Instructions, inst.Change.IsDirectValue = true) :
    ∀ k, mapFind? (ApplyTransaction (ApplyTransaction B a).1 b).1 k
      = mapFind? (ApplyTransaction (ApplyTransaction B b).1 a).1 k := by
  have hra := referencedAccounts_eq_nil_of_direct a hda
  have hrb := referencedAccounts_eq_nil_of_direct b hdb
  intro k
  apply applyTransaction_comm_of_isolated B a b hdisj
  · rw [hra, List.append_nil]
    exact hva
  · rw [hrb, List.append_nil]
    exact hvb
  · rw [hra]
    exact List.disjoint_nil_left _
  · rw [hrb]
    exact List.disjoint_nil_left _

/-- C21 at a concrete pair: the sample transaction and the transaction between "dave"
and "erin" are both applied in full in either order and leave the same table. -/
theorem applyTransaction_comm_direct_witness :
    (ApplyTransaction (ApplyTransaction commutingTable sampleTx).1 otherTx).1
      = [("alice", 89), ("dave", 4), ("erin", 15), ("validator", 2), ("bob", 2), ("carol", 8)] ∧
    (ApplyTransaction (ApplyTransaction commutingTable otherTx).1 sampleTx).1
      = [("alice", 89), ("dave", 4), ("erin", 15), ("validator", 2), ("bob", 2), ("carol", 8)] ∧
    ∀ k, mapFind? (ApplyTransaction (ApplyTransaction commutingTable sampleTx).1 otherTx).1 k
      = mapFind? (ApplyTransaction (ApplyTransaction commutingTable otherTx).1 sampleTx).1 k :=
  ⟨by decide, by decide,
    applyTransaction_comm_direct commutingTable sampleTx otherTx
      (disjoint_of_forall_not_mem (by decide)) (by decide) (by decide)
      (by decide) (by decide)⟩

/-! ## Sums in unbounded integers -/

theorem add64_wrap64_right (x d : Int) : add64 x (wrap64 d) = wrap64 (x + d) := by
  unfold add64 wrap64
  omega

theorem add64_wrap64_left (x d : Int) : add64 (wrap64 x) d = wrap64 (x + d) := by
  unfold add64 wrap64
  omega

theorem sum64_eq_wrap64_exactTotal (B : Balances) (instrs : List Instruction) :
    sum64 0 (resolvedValues B instrs) = wrap64 (exactTotal B instrs) :=
  sum64_zero_eq _

theorem netDelta_eq_wrap64_exactDelta (B : Balances) (instrs : List Instruction)
    (k : String) : netDelta B instrs k = wrap64 (exactDelta B instrs k) :=
  sum64_zero_eq _

theorem add64_netDelta (B : Balances) (instrs : List Instruction) (k : String) (x : Int) :
    add64 x (netDelta B instrs k) = wrap64 (x + exactDelta B instrs k) := by
  rw [netDelta_eq_wrap64_exactDelta, add64_wrap64_right]

/-- When the true total and every true resulting balance fit in an `int64`, the check
of `ValidateTransactionChanges` is the check in unbounded integers. -/
theorem instructionsAdmissible_iff_exact (B : Balances) (tx : Transaction)
    (htotal : IsInt64 (exactTotal B tx.Instructions))
    (hfit : ∀ k ∈ instrAccounts tx.Instructions,
      IsInt64 (mapGet B k + exactDelta B tx.Instructions k)) :
    InstructionsAdmissible B tx ↔
      (∀ inst ∈ tx.Instructions, resolves B inst.Change) ∧
      exactTotal B tx.Instructions = 0 ∧
      ∀ k ∈ instrAccounts tx.Instructions,
        0 ≤ mapGet B k + exactDelta B tx.Instructions k := by
  unfold InstructionsAdmissible
  rw [sum64_eq_wrap64_exactTotal, wrap64_of_isInt64 htotal]
  constructor
  · rintro ⟨h1, h2, h3⟩
    refine ⟨h1, h2, ?_⟩
    intro k hk
    have := h3 k hk
    rw [add64_netDelta, wrap64_of_isInt64 (hfit k hk)] at this
    exact this
  · rintro ⟨h1, h2, h3⟩
    refine ⟨h1, h2, ?_⟩
    intro k hk
    rw [add64_netDelta, wrap64_of_isInt64 (hfit k hk)]
    exact h3 k hk

theorem mapGet_wrapMap (m : Int64Map) (k : String) :
    mapGet (wrapMap m) k = wrap64 (mapGet m k) := by
  induction m with
  | nil =>
    simp only [wrapMap, List.map_nil, mapGet, mapFind?, Option.getD_none]
    decide
  | cons e rest ih =>
    obtain ⟨k0, v0⟩ := e
    by_cases h : k0 = k
    · simp [wrapMap, mapGet, mapFind?, h]
    · have ih2 : (mapFind? (List.map (fun e => (e.1, wrap64 e.2)) rest) k).getD 0
          = wrap64 ((mapFind? rest k).getD 0) := by
        simpa [wrapMap, mapGet] using ih
      simp only [wrapMap, mapGet, mapFind?, List.map_cons, h, if_false, ih2]

theorem wrapMap_mapSet (m : Int64Map) (k : String) (x : Int) :
    wrapMap (mapSet m k x) = mapSet (wrapMap m) k (wrap64 x) := by
  induction m with
  | nil => simp [wrapMap, mapSet]
  | cons e rest ih =>
    obtain ⟨k0, v0⟩ := e
    by_cases h : k0 = k
    · simp [wrapMap, mapSet, h]
    · have ih2 : List.map (fun e => (e.1, wrap64 e.2)) (mapSet rest k x)
          = mapSet (List.map (fun e => (e.1, wrap64 e.2)) rest) k (wrap64 x) := by
        simpa [wrapMap] using ih
      simp only [wrapMap, mapSet, h, if_false, List.map_cons, ih2]

theorem mapKeys_wrapMap (m : Int64Map) : mapKeys (wrapMap m) = mapKeys m := by
  simp [mapKeys, wrapMap, List.map_map, Function.comp_def]

theorem wrapMap_eq_self (m : Int64Map) (h : ∀ e ∈ m, IsInt64 e.2) : wrapMap m = m := by
  induction m with
  | nil => rfl
  | cons e rest ih =>
    have h1 := h e (List.mem_cons_self _ _)
    have h2 := ih (fun x hx => h x (List.mem_cons_of_mem _ hx))
    have h3 : List.map (fun e => (e.1, wrap64 e.2)) rest = rest := by
      simpa [wrapMap] using h2
    simp only [wrapMap, List.map_cons, h3, wrap64_of_isInt64 h1]

/-- The map built by the loop of `CalculateInstructionChanges` is the map of the
unbounded per-account sums with every value reduced into the `int64` range. -/
theorem foldChanges_wrapMap (B : Balances) (instrs : List Instruction) (acc : Int64Map) :
    foldChanges B instrs (wrapMap acc) = wrapMap (exactChanges B instrs acc) := by
  induction instrs generalizing acc with
  | nil => simp [foldChanges, exactChanges]
  | cons inst rest ih =>
    simp only [foldChanges, exactChanges]
    rw [← ih, wrapMap_mapSet, mapGet_wrapMap, add64_wrap64_left]

theorem mapGet_exactChanges (B : Balances) (instrs : List Instruction) (acc : Int64Map)
    (k : String) :
    mapGet (exactChanges B instrs acc) k = mapGet acc k + exactDelta B instrs k := by
  induction instrs generalizing acc with
  | nil => simp [exactChanges, exactDelta, resolvedValues]
  | cons inst rest ih =>
    simp only [exactChanges]
    rw [ih, mapGet_mapSet]
    by_cases h : inst.Account = k
    · simp only [h, if_true, exactDelta, resolvedValues, List.filter_cons, decide_True,
        List.map_cons, List.sum_cons]
      omega
    · simp [h, exactDelta, resolvedValues]

theorem mapSum_exactChanges (B : Balances) (instrs : List Instruction) (acc : Int64Map) :
    mapSum (exactChanges B instrs acc) = mapSum acc + exactTotal B instrs := by
  induction instrs generalizing acc with
  | nil => simp [exactChanges, exactTotal, resolvedValues]
  | cons inst rest ih =>
    simp only [exactChanges]
    rw [ih, mapSum_mapSet]
    simp only [exactTotal, resolvedValues, List.map_cons, List.sum_cons]
    omega

/-- When every true per-account sum fits in an `int64`, the map built by the loop holds
exactly those sums. -/
theorem foldChanges_eq_exactChanges (B : Balances) (instrs : List Instruction)
    (hfit : ∀ k ∈ instrAccounts instrs, IsInt64 (exactDelta B instrs k)) :
    foldChanges B instrs [] = exactChanges B instrs [] := by
  have hw := foldChanges_wrapMap B instrs []
  have hnil : wrapMap ([] : Int64Map) = [] := rfl
  rw [hnil] at hw
  have hkeys : mapKeys (exactChanges B instrs []) = mapKeys (foldChanges B instrs []) := by
    rw [hw, mapKeys_wrapMap]
  rw [hw]
  apply wrapMap_eq_self
  intro e he
  obtain ⟨k, v⟩ := e
  have hk : k ∈ mapKeys (exactChanges B instrs []) := by
    simp only [mapKeys, List.mem_map]
    exact ⟨(k, v), he, rfl⟩
  have hnd : (mapKeys (exactChanges B instrs [])).Nodup := by
    rw [hkeys]
    exact foldChanges_nodup B instrs [] (by simp [mapKeys])
  have hnamed : k ∈ instrAccounts instrs := by
    rw [hkeys, mem_mapKeys_foldChanges] at hk
    rcases hk with h1 | h1
    · exact h1
    · simp [mapKeys] at h1
  have hv : mapGet (exactChanges B instrs []) k = v := mapGet_of_mem _ k v hnd he
  rw [mapGet_exactChanges] at hv
  have h0 : mapGet ([] : Int64Map) k = 0 := rfl
  rw [h0, Int.zero_add] at hv
  simp only
  rw [← hv]
  exact hfit k hnamed

/-! ## The change calculator in unbounded integers -/

/-- C12, counterexample. With "bob" at the smallest `int64`, -9223372036854775808, a
reference to "bob" with sign "minus" resolves to -9223372036854775808 itself, not to
the negated balance 9223372036854775808. -/
theorem calculateChange_minus_wraps :
    CalculateChange floorBobTable (ref "bob" "minus") = (-9223372036854775808, none) ∧
    -(mapGet floorBobTable "bob") = 9223372036854775808 ∧
    (CalculateChange floorBobTable (ref "bob" "minus")).1 ≠ -(mapGet floorBobTable "bob") := by
  decide

/-- C12, amended. `CalculateChange` on any table: a direct value is returned as it is
with a nil error; an account reference (no direct value, non-empty account) returns the
balance of the referenced account for sign "plus"; for sign "minus" it returns the
negated balance, in unbounded integers, unless the balance is the smallest `int64`,
for which it returns that balance unchanged; an absent account counts as 0 and is
never an error; any other sign returns the invalid-sign error.  With "bob" at 50 the
references resolve to 50 and -50, a reference to the never-seen "dave" resolves to 0,
and the sign "up" is an error. -/
theorem calculateChange_spec (B : Balances) :
    (∀ c v, c.Value = some v → CalculateChange B c = (v, none)) ∧
    (∀ c, c.Value = none → c.Account ≠ "" → c.Sign = "plus" →
      CalculateChange B c = (mapGet B c.Account, none)) ∧
    (∀ c, c.Value = none → c.Account ≠ "" → c.Sign = "minus" →
      IsInt64 (mapGet B c.Account) → mapGet B c.Account ≠ minInt64 →
      CalculateChange B c = (-(mapGet B c.Account), none)) ∧
    (∀ c, c.Value = none → c.Account ≠ "" → c.Sign = "minus" →
      mapGet B c.Account = minInt64 → CalculateChange B c = (minInt64, none)) ∧
    (∀ c, c.Value = none → c.Account ≠ "" → mapFind? B c.Account = none →
      c.Sign = "plus" ∨ c.Sign = "minus" → CalculateChange B c = (0, none)) ∧
    (∀ c, c.Value = none → c.Account ≠ "" → c.Sign ≠ "plus" → c.Sign ≠ "minus" →
      CalculateChange B c = (0, some (ChangeError.invalidSign c.Sign))) ∧
    CalculateChange bobTable (direct (-10)) = (-10, none) ∧
    CalculateChange bobTable (ref "bob" "plus") = (50, none) ∧
    CalculateChange bobTable (ref "bob" "minus") = (-50, none) ∧
    CalculateChange bobTable (ref "dave" "plus") = (0, none) ∧
    CalculateChange bobTable (ref "bob" "up") = (0, some (ChangeError.invalidSign "up")) := by
  have hget : ∀ a : String, (match mapFind? B a with
      | some b => b
      | none => 0) = mapGet B a := by
    intro a
    unfold mapGet
    cases mapFind? B a <;> rfl
  have hminus : ∀ c : Change, c.Value = none → c.Account ≠ "" → c.Sign = "minus" →
      CalculateChange B c = (neg64 (mapGet B c.Account), none) := by
    intro c hv ha hs
    simp [CalculateChange, Change.IsDirectValue, Change.IsAccountReference, hv, ha, hs, hget]
  refine ⟨?_, ?_, ?_, ?_, ?_, ?_, by decide, by decide, by decide, by decide, by decide⟩
  · intro c v hv
    simp [CalculateChange, Change.IsDirectValue, Change.GetDirectValue, hv]
  · intro c hv ha hs
    simp [CalculateChange, Change.IsDirectValue, Change.IsAccountReference, hv, ha, hs, hget]
  · intro c hv ha hs hr hmin
    rw [hminus c hv ha hs]
    have hneg : neg64 (mapGet B c.Account) = -(mapGet B c.Account) := by
      unfold IsInt64 minInt64 maxInt64 at hr
      unfold minInt64 at hmin
      unfold neg64 wrap64
      omega
    rw [hneg]
  · intro c hv ha hs hmin
    rw [hminus c hv ha hs, hmin]
    decide
  · intro c hv ha hf hs
    rcases hs with hs | hs
    · simp [CalculateChange, Change.IsDirectValue, Change.IsAccountReference, hv, ha, hs, hf]
    · simp [CalculateChange, Change.IsDirectValue, Change.IsAccountReference, hv, ha, hs, hf]
      decide
  · intro c hv ha h1 h2
    simp [CalculateChange, Change.IsDirectValue, Change.IsAccountReference, hv, ha, h1, h2]

/-- C13, counterexample. All changes resolve, yet the returned total and map are not the
sums: four credits of 4611686018427387904 return total 0 while the values, and the
values of the returned map, add up to 18446744073709551616; and two credits to "a"
adding up to 9223372036854775808 leave -9223372036854775808 at "a" although all
values add up to 0, the total returned. -/
theorem calculateInstructionChanges_sums_wrap :
    (CalculateInstructionChanges unitTable wrappingTx.Instructions
        = (some [("bob", 4611686018427387904), ("carol", 4611686018427387904),
            ("dave", 4611686018427387904), ("erin", 4611686018427387904)], 0, none) ∧
      exactTotal unitTable wrappingTx.Instructions = 18446744073709551616 ∧
      mapSum [("bob", 4611686018427387904), ("carol", 4611686018427387904),
        ("dave", 4611686018427387904), ("erin", 4611686018427387904)]
        = 18446744073709551616) ∧
    (CalculateInstructionChanges unitTable carryInstrs
        = (some [("a", -9223372036854775808), ("b", -9223372036854775808)], 0, none) ∧
      exactTotal unitTable carryInstrs = 0 ∧
      exactDelta unitTable carryInstrs "a" = 9223372036854775808) := by
  decide

/-- C13, amended. When every change resolves and the sum of all resolved values and
the sum of the resolved values of each named account fit in an `int64`,
`CalculateInstructionChanges` returns a nil error and a map whose keys, each stored
once, are exactly the accounts named by the instructions; the value at an account is
the sum of the resolved values of the instructions naming it; the total is the sum of
all resolved values, and the values of the map add up to the total.  All sums are in
unbounded integers. -/
theorem calculateInstructionChanges_ok (B : Balances) (instrs : List Instruction)
    (hres : ∀ inst ∈ instrs, resolves B inst.Change)
    (htotal : IsInt64 (exactTotal B instrs))
    (hfit : ∀ k ∈ instrAccounts instrs, IsInt64 (exactDelta B instrs k)) :
    ∃ changes total,
      CalculateInstructionChanges B instrs = (some changes, total, none) ∧
      (mapKeys changes).Nodup ∧
      (∀ k, k ∈ mapKeys changes ↔ k ∈ instrAccounts instrs) ∧
      (∀ k ∈ instrAccounts instrs,
        mapFind? changes k = some
          (resolvedValues B (instrs.filter (fun inst => decide (inst.Account = k)))).sum) ∧
      total = (resolvedValues B instrs).sum ∧
      mapSum changes = total := by
  have hloop := calcLoop_of_resolves B instrs 0 [] 0 hres
  have hkeys : ∀ k, k ∈ mapKeys (foldChanges B instrs []) ↔ k ∈ instrAccounts instrs := by
    intro k
    rw [mem_mapKeys_foldChanges]
    simp [mapKeys]
  have hexact := foldChanges_eq_exactChanges B instrs hfit
  have htot : sum64 0 (resolvedValues B instrs) = (resolvedValues B instrs).sum := by
    rw [sum64_eq_wrap64_exactTotal, wrap64_of_isInt64 htotal]
    rfl
  refine ⟨foldChanges B instrs [], sum64 0 (resolvedValues B instrs), hloop,
    foldChanges_nodup B instrs [] (by simp [mapKeys]), hkeys, ?_, htot, ?_⟩
  · intro k hk
    rw [mapFind?_of_mem_mapKeys _ _ ((hkeys k).mpr hk), hexact, mapGet_exactChanges]
    simp [mapGet, mapFind?, exactDelta]
  · rw [hexact, mapSum_exactChanges, htot]
    simp [mapSum, exactTotal]

/-- C13, amended, at a concrete input: "bob" is named twice and referenced once; the
map holds bob 5 and alice -50, the total is -45. -/
theorem calculateInstructionChanges_ok_witness :
    CalculateInstructionChanges bobTable repeatedInstrs
      = (some [("bob", 5), ("alice", -50)], -45, none) ∧
    ∃ changes total,
      CalculateInstructionChanges bobTable repeatedInstrs = (some changes, total, none) ∧
      (mapKeys changes).Nodup ∧
      (∀ k, k ∈ mapKeys changes ↔ k ∈ instrAccounts repeatedInstrs) ∧
      (∀ k ∈ instrAccounts repeatedInstrs,
        mapFind? changes k = some
          (resolvedValues bobTable
            (repeatedInstrs.filter (fun inst => decide (inst.Account = k)))).sum) ∧
      total = (resolvedValues bobTable repeatedInstrs).sum ∧
      mapSum changes = total :=
  ⟨by decide,
    calculateInstructionChanges_ok bobTable repeatedInstrs (by decide) (by decide)
      (by decide)⟩

/-! ## Fee-only application -/

/-- C1, counterexample. Two fee-only applications in which the fee is not moved: on
alice 1, validator 9223372036854775807 the sample transaction leaves the validator
account at -9223372036854775808, not raised by the fee; on alice
-9223372036854775808, validator 0 the mutated transaction leaves "alice" at
9223372036854775807, not lowered by the fee. -/
theorem applyTransaction_fee_move_wraps :
    (sampleTx.Fee.Payer ≠ validatorAcct ∧
      ValidateTransactionChanges (postFee saturatedTable sampleTx) sampleTx ≠ none ∧
      (ApplyTransaction saturatedTable sampleTx).1
        = [("alice", 0), ("validator", -9223372036854775808)] ∧
      mapGet saturatedTable validatorAcct + sampleTx.Fee.Amount = 9223372036854775808) ∧
    (mutatedTx.Fee.Payer ≠ validatorAcct ∧
      ValidateTransactionChanges (postFee floorTable mutatedTx) mutatedTx ≠ none ∧
      (ApplyTransaction floorTable mutatedTx).1
        = [("alice", 9223372036854775807), ("validator", 1)] ∧
      mapGet floorTable mutatedTx.Fee.Payer - mutatedTx.Fee.Amount
        = -9223372036854775809) := by
  decide

/-- C1, amended. Fee-only application: when the payer is not the validator account, the
instructions fail the re-check on the post-fee table, and neither the payer's balance
minus the fee nor the validator balance plus the fee leaves the `int64` range,
`ApplyTransaction` returns a nil error and leaves the table with the payer lowered by
the fee, the validator account raised by the fee (in unbounded integers), and every
other account as it was, present or absent. -/
theorem applyTransaction_fee_only (B : Balances) (tx : Transaction)
    (hpayer : tx.Fee.Payer ≠ validatorAcct)
    (hfail : ValidateTransactionChanges (postFee B tx) tx ≠ none)
    (hdebit : IsInt64 (mapGet B tx.Fee.Payer - tx.Fee.Amount))
    (hcredit : IsInt64 (mapGet B validatorAcct + tx.Fee.Amount)) :
    (ApplyTransaction B tx).2 = none ∧
    mapFind? (ApplyTransaction B tx).1 tx.Fee.Payer
      = some (mapGet B tx.Fee.Payer - tx.Fee.Amount) ∧
    mapFind? (ApplyTransaction B tx).1 validatorAcct
      = some (mapGet B validatorAcct + tx.Fee.Amount) ∧
    ∀ k, k ≠ tx.Fee.Payer → k ≠ validatorAcct →
      mapFind? (ApplyTransaction B tx).1 k = mapFind? B k := by
  have herr : (ApplyTransaction B tx).2 = none := by
    unfold ApplyTransaction
    simp only
    split <;> rfl
  have hne : ¬ validatorAcct = tx.Fee.Payer := fun h => hpayer h.symm
  have hsub : sub64 (mapGet B tx.Fee.Payer) tx.Fee.Amount
      = mapGet B tx.Fee.Payer - tx.Fee.Amount := wrap64_of_isInt64 hdebit
  have hadd : add64 (mapGet B validatorAcct) tx.Fee.Amount
      = mapGet B validatorAcct + tx.Fee.Amount := wrap64_of_isInt64 hcredit
  refine ⟨herr, ?_, ?_, ?_⟩
  · rw [mapFind?_applyTransaction, mapFind?_postFee, ← hsub]
    simp [hfail, hne]
  · rw [mapFind?_applyTransaction, mapFind?_postFee, ← hadd]
    simp [hfail, hpayer]
  · intro k hk1 hk2
    have h1 : ¬ validatorAcct = k := fun h => hk2 h.symm
    have h2 : ¬ tx.Fee.Payer = k := fun h => hk1 h.symm
    rw [mapFind?_applyTransaction, mapFind?_postFee]
    simp [hfail, h1, h2]

/-- C1, amended, at the fixture of the specification: on the table alice 5, validator 0
the sample transaction is charged its fee only, and the table left is exactly
alice 4, validator 1. -/
theorem applyTransaction_fee_only_witness :
    ApplyTransaction feeOnlyTable sampleTx = ([("alice", 4), ("validator", 1)], none) ∧
    ((ApplyTransaction feeOnlyTable sampleTx).2 = none ∧
     mapFind? (ApplyTransaction feeOnlyTable sampleTx).1 "alice" = some (5 - 1) ∧
     mapFind? (ApplyTransaction feeOnlyTable sampleTx).1 validatorAcct = some (0 + 1) ∧
     ∀ k, k ≠ "alice" → k ≠ validatorAcct →
       mapFind? (ApplyTransaction feeOnlyTable sampleTx).1 k = mapFind? feeOnlyTable k) :=
  ⟨by decide,
    applyTransaction_fee_only feeOnlyTable sampleTx (by decide) (by decide) (by decide)
      (by decide)⟩

/-! ## The admission check in unbounded integers -/

/-- C2, counterexample. Three inputs on which `ValidateTransaction` and the three
conditions of the specification disagree.  On alice 10, bob -1 the single instruction
bob +0 satisfies the conditions (no account has a nonzero net delta) and is rejected.
On alice 1, validator 0 four credits of 4611686018427387904 are accepted although they
add up to 18446744073709551616.  On p 2, a -1 the debit of 9223372036854775808 from
"a" is accepted although the values add up to 0 and "a" would go to
-9223372036854775809. -/
theorem validateTransaction_iff_fails :
    (SpecAdmissible overdrawnTable zeroDeltaTx ∧
      ValidateTransaction overdrawnTable zeroDeltaTx = false) ∧
    (ValidateTransaction unitTable wrappingTx = true ∧
      exactTotal unitTable wrappingTx.Instructions = 18446744073709551616 ∧
      ¬ SpecAdmissible unitTable wrappingTx) ∧
    (ValidateTransaction borrowTable borrowTx = true ∧
      exactTotal borrowTable borrowTx.Instructions = 0 ∧
      mapGet borrowTable "a" + exactDelta borrowTable borrowTx.Instructions "a"
        = -9223372036854775809 ∧
      ¬ SpecAdmissible borrowTable borrowTx) := by
  refine ⟨⟨⟨by decide, ⟨by decide, by decide⟩, ?_⟩, by decide⟩,
    ⟨by decide, by decide, ?_⟩, ⟨by decide, by decide, by decide, ?_⟩⟩
  · intro k hk
    exfalso
    apply hk
    by_cases h : "bob" = k
    · subst h
      decide
    · simp [exactDelta, zeroDeltaTx, h, resolvedValues]
  · intro h
    exact absurd h.2.1.2 (by decide)
  · intro h
    exact absurd (h.2.2 "a" (by decide)) (by decide)

/-- C2, amended. For a transaction and table on which the sum of the resolved values
and, for every account named by an instruction, the balance plus the net delta fit in
an `int64`, `ValidateTransaction` returns true exactly when (1) the payer's balance,
zero if absent, covers the fee, (2) every change resolves and the resolved values add
up to zero, and (3) for every account named by an instruction, whatever its net delta,
balance plus net delta is not negative.  Sums are in unbounded integers. -/
theorem validateTransaction_iff (B : Balances) (tx : Transaction)
    (htotal : IsInt64 (exactTotal B tx.Instructions))
    (hfit : ∀ k ∈ instrAccounts tx.Instructions,
      IsInt64 (mapGet B k + exactDelta B tx.Instructions k)) :
    ValidateTransaction B tx = true ↔
      tx.Fee.Amount ≤ mapGet B tx.Fee.Payer ∧
      ((∀ inst ∈ tx.Instructions, resolves B inst.Change) ∧
        exactTotal B tx.Instructions = 0) ∧
      ∀ k ∈ instrAccounts tx.Instructions,
        0 ≤ mapGet B k + exactDelta B tx.Instructions k := by
  rw [validateTransaction_eq_true_iff, instructionsAdmissible_iff_exact B tx htotal hfit]
  tauto

/-- C2, amended, at a concrete input: on alice 11 the sample transaction is accepted,
and the three conditions hold. -/
theorem validateTransaction_iff_witness :
    ValidateTransaction fundedTable sampleTx = true ∧
    (ValidateTransaction fundedTable sampleTx = true ↔
      sampleTx.Fee.Amount ≤ mapGet fundedTable sampleTx.Fee.Payer ∧
      ((∀ inst ∈ sampleTx.Instructions, resolves fundedTable inst.Change) ∧
        exactTotal fundedTable sampleTx.Instructions = 0) ∧
      ∀ k ∈ instrAccounts sampleTx.Instructions,
        0 ≤ mapGet fundedTable k + exactDelta fundedTable sampleTx.Instructions k) :=
  ⟨by decide, validateTransaction_iff fundedTable sampleTx (by decide) (by decide)⟩

/-- C8, the code at the failing inputs. `ValidateTransaction` accepts, on alice 1,
validator 0, four credits of 4611686018427387904, which add up to
18446744073709551616 and not to 0; and it accepts, on p 2, a -1, a debit of
9223372036854775808 from "a", whose balance plus net delta is -9223372036854775809.
The mutated fixture (alice -10, bob +3, carol +8, total 1) is rejected on every
table. -/
theorem validateTransaction_admits_wrapped_sums (B : Balances) :
    (ValidateTransaction unitTable wrappingTx = true ∧
      exactTotal unitTable wrappingTx.Instructions = 18446744073709551616) ∧
    (ValidateTransaction borrowTable borrowTx = true ∧
      "a" ∈ instrAccounts borrowTx.Instructions ∧
      mapGet borrowTable "a" + exactDelta borrowTable borrowTx.Instructions "a"
        = -9223372036854775809) ∧
    ValidateTransaction B mutatedTx = false := by
  refine ⟨by decide, by decide, ?_⟩
  cases hv : ValidateTransaction B mutatedTx with
  | false => rfl
  | true =>
    have hsum := ((validateTransaction_eq_true_iff B mutatedTx).mp hv).2.2.1
    have hvals : resolvedValues B mutatedTx.Instructions = [-10, 3, 8] := by
      simp only [mutatedTx, resolvedValues_direct]
      simp [resolvedValues]
    rw [hvals] at hsum
    exact absurd hsum (by decide)

/-! ## The re-check at application time -/

/-- C5, counterexample. Three inputs on which the balance-aware check fails on the
post-fee table and `ApplyTransaction` applies the instruction deltas all the same.  On
alice 1, bob 5, validator 0 the payer holds 0 after the fee, less than the fee.  On
alice 2, validator 0 the four credits of 4611686018427387904 add up to
18446744073709551616.  On p 2, a -1 the debit of 9223372036854775808 would take "a" to
-9223372036854775809. -/
theorem applyTransaction_recheck_differs :
    (ValidateTransaction (postFee thirdPartyTable thirdPartyTx) thirdPartyTx = false ∧
      ¬ SpecAdmissible (postFee thirdPartyTable thirdPartyTx) thirdPartyTx ∧
      (ApplyTransaction thirdPartyTable thirdPartyTx).1
        = [("alice", 0), ("bob", 0), ("validator", 1), ("carol", 5)] ∧
      (ApplyTransaction thirdPartyTable thirdPartyTx).1
        ≠ postFee thirdPartyTable thirdPartyTx) ∧
    (exactTotal (postFee twoTable wrappingTx) wrappingTx.Instructions
        = 18446744073709551616 ∧
      ¬ SpecAdmissible (postFee twoTable wrappingTx) wrappingTx ∧
      (ApplyTransaction twoTable wrappingTx).1
        = [("alice", 1), ("validator", 1), ("bob", 4611686018427387904),
           ("carol", 4611686018427387904), ("dave", 4611686018427387904),
           ("erin", 4611686018427387904)] ∧
      (ApplyTransaction twoTable wrappingTx).1 ≠ postFee twoTable wrappingTx) ∧
    (exactTotal (postFee borrowTable borrowTx) borrowTx.Instructions = 0 ∧
      mapGet (postFee borrowTable borrowTx) "a"
          + exactDelta (postFee borrowTable borrowTx) borrowTx.Instructions "a"
        = -9223372036854775809 ∧
      ¬ SpecAdmissible (postFee borrowTable borrowTx) borrowTx ∧
      (ApplyTransaction borrowTable borrowTx).1
        = [("p", 1), ("a", 9223372036854775807), ("validator", 1),
           ("b", 9223372036854775807), ("c", 1)] ∧
      (ApplyTransaction borrowTable borrowTx).1 ≠ postFee borrowTable borrowTx) := by
  refine ⟨⟨by decide, ?_, by decide, by decide⟩, ⟨by decide, ?_, by decide, by decide⟩,
    ⟨by decide, by decide, ?_, by decide, by decide⟩⟩
  · intro h
    exact absurd h.1 (by decide)
  · intro h
    exact absurd h.2.1.2 (by decide)
  · intro h
    exact absurd (h.2.2 "a" (by decide)) (by decide)

/-- C5, amended. With `P` the post-fee table, and provided the sum of the resolved
values and, for every account named by an instruction, its balance in `P` plus its
net delta fit in an `int64`: `ApplyTransaction` applies the instruction deltas exactly
when the instruction part of the check passes on `P` (every change resolves, the
resolved values add up to zero, no named account would go negative); the comparison of
the payer's balance with the fee is not run again.  When the instruction check passes,
every named account holds its value in `P` plus its net delta and every other account
its entry in `P`; when it fails the final table is `P`.  Sums are in unbounded
integers. -/
theorem applyTransaction_recheck (B : Balances) (tx : Transaction)
    (htotal : IsInt64 (exactTotal (postFee B tx) tx.Instructions))
    (hfit : ∀ k ∈ instrAccounts tx.Instructions,
      IsInt64 (mapGet (postFee B tx) k + exactDelta (postFee B tx) tx.Instructions k)) :
    (((∀ inst ∈ tx.Instructions, resolves (postFee B tx) inst.Change) ∧
        exactTotal (postFee B tx) tx.Instructions = 0 ∧
        ∀ k ∈ instrAccounts tx.Instructions,
          0 ≤ mapGet (postFee B tx) k + exactDelta (postFee B tx) tx.Instructions k) →
      ∀ k, mapFind? (ApplyTransaction B tx).1 k
        = if k ∈ instrAccounts tx.Instructions then
            some (mapGet (postFee B tx) k + exactDelta (postFee B tx) tx.Instructions k)
          else mapFind? (postFee B tx) k) ∧
    (¬ ((∀ inst ∈ tx.Instructions, resolves (postFee B tx) inst.Change) ∧
        exactTotal (postFee B tx) tx.Instructions = 0 ∧
        ∀ k ∈ instrAccounts tx.Instructions,
          0 ≤ mapGet (postFee B tx) k + exactDelta (postFee B tx) tx.Instructions k) →
      (ApplyTransaction B tx).1 = postFee B tx) := by
  have hiff := instructionsAdmissible_iff_exact (postFee B tx) tx htotal hfit
  constructor
  · intro h k
    have hv := (validateTransactionChanges_eq_none_iff (postFee B tx) tx).mpr (hiff.mpr h)
    rw [mapFind?_applyTransaction]
    by_cases hk : k ∈ instrAccounts tx.Instructions
    · rw [add64_netDelta, wrap64_of_isInt64 (hfit k hk)]
      simp [hv, hk]
    · simp [hk]
  · intro h
    have hv : ValidateTransactionChanges (postFee B tx) tx ≠ none :=
      fun hc => h (hiff.mp ((validateTransactionChanges_eq_none_iff (postFee B tx) tx).mp hc))
    have hP : mapSet (mapSet B tx.Fee.Payer (sub64 (mapGet B tx.Fee.Payer) tx.Fee.Amount))
        validatorAcct
        (add64 (mapGet (mapSet B tx.Fee.Payer (sub64 (mapGet B tx.Fee.Payer) tx.Fee.Amount))
          validatorAcct) tx.Fee.Amount) = postFee B tx := rfl
    cases hc : ValidateTransactionChanges (postFee B tx) tx with
    | none => exact absurd hc hv
    | some e => simp [ApplyTransaction, hP, hc]

/-- C5, amended, at two concrete inputs: the sample transaction is applied in full on
alice 11 and fee-only on alice 5. -/
theorem applyTransaction_recheck_witness :
    (ApplyTransaction fundedTable sampleTx).1
      = [("alice", 0), ("validator", 1), ("bob", 2), ("carol", 8)] ∧
    mapFind? (ApplyTransaction fundedTable sampleTx).1 "bob" = some 2 ∧
    (ApplyTransaction feeOnlyTable sampleTx).1 = postFee feeOnlyTable sampleTx :=
  ⟨by decide,
    by
      have h := (applyTransaction_recheck fundedTable sampleTx (by decide) (by decide)).1
        (by decide) "bob"
      rw [h]
      decide,
    (applyTransaction_recheck feeOnlyTable sampleTx (by decide) (by decide)).2 (by decide)⟩

/-- C6, counterexample. On p 2, a -1 the instruction re-check passes on the post-fee
table and the net delta computed for "a" is -9223372036854775808; after
`ApplyTransaction` "a" holds 9223372036854775807, while its value in the post-fee
table plus the delta is -9223372036854775809. -/
theorem applyTransaction_full_wraps :
    ValidateTransactionChanges (postFee borrowTable borrowTx) borrowTx = none ∧
    CalculateInstructionChanges (postFee borrowTable borrowTx) borrowTx.Instructions
      = (some [("a", -9223372036854775808), ("b", 9223372036854775807), ("c", 1)], 0, none) ∧
    mapGet (postFee borrowTable borrowTx) "a" = -1 ∧
    mapFind? (ApplyTransaction borrowTable borrowTx).1 "a" = some 9223372036854775807 ∧
    mapGet (postFee borrowTable borrowTx) "a" + -9223372036854775808
      = -9223372036854775809 := by
  decide

/-- C6, amended. Full application: when the instruction re-check passes on the post-fee
table `P` and, for each account named by an instruction, its value in `P` plus the net
delta computed for it fits in an `int64`, `CalculateInstructionChanges` run against
`P` returns a map whose keys are the accounts named by the instructions and whose
values are their net deltas resolved against `P`; the final table holds, for each
named account, its value in `P` plus that delta (in unbounded integers), and for every
other account its entry in `P`. -/
theorem applyTransaction_full (B : Balances) (tx : Transaction)
    (hpass : ValidateTransactionChanges (postFee B tx) tx = none)
    (hfit : ∀ k ∈ instrAccounts tx.Instructions,
      IsInt64 (mapGet (postFee B tx) k
        + mapGet ((CalculateInstructionChanges (postFee B tx) tx.Instructions).1.getD []) k)) :
    ∃ changes total,
      CalculateInstructionChanges (postFee B tx) tx.Instructions = (some changes, total, none) ∧
      (∀ k, k ∈ mapKeys changes ↔ k ∈ instrAccounts tx.Instructions) ∧
      (∀ k ∈ instrAccounts tx.Instructions,
        mapGet changes k = netDelta (postFee B tx) tx.Instructions k ∧
        mapFind? (ApplyTransaction B tx).1 k
          = some (mapGet (postFee B tx) k + mapGet changes k)) ∧
      ∀ k, k ∉ instrAccounts tx.Instructions →
        mapFind? (ApplyTransaction B tx).1 k = mapFind? (postFee B tx) k := by
  have hadm := (validateTransactionChanges_eq_none_iff (postFee B tx) tx).mp hpass
  have hloop := calcLoop_of_resolves (postFee B tx) tx.Instructions 0 [] 0 hadm.1
  have hnet : ∀ k, mapGet (foldChanges (postFee B tx) tx.Instructions []) k
      = netDelta (postFee B tx) tx.Instructions k := by
    intro k
    rw [mapGet_foldChanges]
    simp [netDelta, mapGet, mapFind?]
  have hcic : (CalculateInstructionChanges (postFee B tx) tx.Instructions).1.getD []
      = foldChanges (postFee B tx) tx.Instructions [] := by
    unfold CalculateInstructionChanges
    rw [hloop]
    rfl
  rw [hcic] at hfit
  refine ⟨foldChanges (postFee B tx) tx.Instructions [], _, hloop, ?_, ?_, ?_⟩
  · intro k
    rw [mem_mapKeys_foldChanges]
    simp [mapKeys]
  · intro k hk
    refine ⟨hnet k, ?_⟩
    have hw : add64 (mapGet (postFee B tx) k) (netDelta (postFee B tx) tx.Instructions k)
        = mapGet (postFee B tx) k + netDelta (postFee B tx) tx.Instructions k := by
      have := hfit k hk
      rw [hnet k] at this
      exact wrap64_of_isInt64 this
    rw [mapFind?_applyTransaction, hnet k, ← hw]
    simp [hpass, hk]
  · intro k hk
    rw [mapFind?_applyTransaction]
    simp [hk]

/-- C6, amended, at a concrete input: a transaction moving the whole balance of its
payer is resolved against the post-fee table, where "alice" holds 9, not against the
table before the fee, where she holds 10. -/
theorem applyTransaction_full_witness :
    (ApplyTransaction drainTable drainTx).1 = [("alice", 0), ("validator", 1), ("bob", 9)] ∧
    ∃ changes total,
      CalculateInstructionChanges (postFee drainTable drainTx) drainTx.Instructions
        = (some changes, total, none) ∧
      (∀ k, k ∈ mapKeys changes ↔ k ∈ instrAccounts drainTx.Instructions) ∧
      (∀ k ∈ instrAccounts drainTx.Instructions,
        mapGet changes k = netDelta (postFee drainTable drainTx) drainTx.Instructions k ∧
        mapFind? (ApplyTransaction drainTable drainTx).1 k
          = some (mapGet (postFee drainTable drainTx) k + mapGet changes k)) ∧
      ∀ k, k ∉ instrAccounts drainTx.Instructions →
        mapFind? (ApplyTransaction drainTable drainTx).1 k
          = mapFind? (postFee drainTable drainTx) k :=
  ⟨by decide, applyTransaction_full drainTable drainTx (by decide) (by decide)⟩

/-! ## Order of application: the validator account as fee payer -/

/-- The validator entry after `ApplyTransaction` of a transaction with no instruction on
the validator account. -/
theorem mapFind?_applyTransaction_at_validator (B : Balances) (tx : Transaction)
    (hv : validatorAcct ∉ instrAccounts tx.Instructions) :
    mapFind? (ApplyTransaction B tx).1 validatorAcct
      = some (add64 (if tx.Fee.Payer = validatorAcct
                then sub64 (mapGet B validatorAcct) tx.Fee.Amount
                else mapGet B validatorAcct) tx.Fee.Amount) := by
  rw [mapFind?_applyTransaction, mapFind?_postFee]
  by_cases hp : tx.Fee.Payer = validatorAcct
  · rw [if_pos hp, if_pos hp, hp]
    simp [hv]
  · simp [hv, hp]

theorem postFee_agreeOn_off_validator (B1 B2 : Balances) (tx : Transaction)
    (S : List String) (hS : AgreeOn S B1 B2) (hv : validatorAcct ∉ S) :
    AgreeOn S (postFee B1 tx) (postFee B2 tx) := by
  intro k hk
  have h3 : ¬ validatorAcct = k := fun h => hv (h ▸ hk)
  rw [mapFind?_postFee, mapFind?_postFee, if_neg h3, if_neg h3]
  by_cases hp : tx.Fee.Payer = k
  · rw [if_pos hp, if_pos hp, hp, mapGet_eq_of_mapFind?_eq (hS k hk)]
  · rw [if_neg hp, if_neg hp]
    exact hS k hk

/-- The effect of `ApplyTransaction` on a touched account other than the validator
account depends only on the entries of the touched and referenced accounts other than
the validator account, provided the transaction has no instruction on and no
reference to the validator account. -/
theorem mapFind?_applyTransaction_congr_off_validator (B1 B2 : Balances) (tx : Transaction)
    (ht : ∀ x ∈ touchedAccounts tx, x ≠ validatorAcct → mapFind? B1 x = mapFind? B2 x)
    (hr : AgreeOn (referencedAccounts tx) B1 B2)
    (hvi : validatorAcct ∉ instrAccounts tx.Instructions)
    (hvr : validatorAcct ∉ referencedAccounts tx)
    (k : String) (hk : k ∈ touchedAccounts tx) (hkv : k ≠ validatorAcct) :
    mapFind? (ApplyTransaction B1 tx).1 k = mapFind? (ApplyTransaction B2 tx).1 k := by
  have hI : AgreeOn (instrAccounts tx.Instructions) B1 B2 := fun x hx =>
    ht x (mem_touchedAccounts_of_mem_instrAccounts tx x hx) (fun h => hvi (h ▸ hx))
  have hK : AgreeOn [k] B1 B2 := by
    intro x hx
    rw [List.mem_singleton] at hx
    subst hx
    exact ht _ hk hkv
  have hvk : validatorAcct ∉ [k] := by
    intro h
    rw [List.mem_singleton] at h
    exact hkv h.symm
  have hPi := postFee_agreeOn_off_validator B1 B2 tx _ hI hvi
  have hPr := postFee_agreeOn_off_validator B1 B2 tx _ hr hvr
  have hPk : mapFind? (postFee B1 tx) k = mapFind? (postFee B2 tx) k :=
    postFee_agreeOn_off_validator B1 B2 tx _ hK hvk k (List.mem_singleton_self k)
  have hadm := instructionsAdmissible_congr (postFee B1 tx) (postFee B2 tx) tx hPr hPi
  have hval : ValidateTransactionChanges (postFee B1 tx) tx = none
      ↔ ValidateTransactionChanges (postFee B2 tx) tx = none := by
    rw [validateTransactionChanges_eq_none_iff, validateTransactionChanges_eq_none_iff]
    exact hadm
  have hnet := netDelta_congr (postFee B1 tx) (postFee B2 tx) tx.Instructions k
    (calculateChange_congr (postFee B1 tx) (postFee B2 tx) tx hPr)
  rw [mapFind?_applyTransaction, mapFind?_applyTransaction, hnet,
    mapGet_eq_of_mapFind?_eq hPk, hPk]
  by_cases h2 : ValidateTransactionChanges (postFee B2 tx) tx = none
  · simp [h2, hval.mpr h2]
  · have h1 : ¬ ValidateTransactionChanges (postFee B1 tx) tx = none := fun h => h2 (hval.mp h)
    simp [h1, h2]

/-- Two transactions commute when their touched sets are disjoint, neither has an
instruction on or a reference to the validator account, and neither references an
account the other touches.  Either may pay its fee from the validator account. -/
theorem applyTransaction_comm_of_separate (B : Balances) (a b : Transaction)
    (hdisj : List.Disjoint (touchedAccounts a) (touchedAccounts b))
    (hva : validatorAcct ∉ instrAccounts a.Instructions ++ referencedAccounts a)
    (hvb : validatorAcct ∉ instrAccounts b.Instructions ++ referencedAccounts b)
    (hab : List.Disjoint (referencedAccounts a) (touchedAccounts b))
    (hba : List.Disjoint (referencedAccounts b) (touchedAccounts a)) (k : String) :
    mapFind? (ApplyTransaction (ApplyTransaction B a).1 b).1 k
      = mapFind? (ApplyTransaction (ApplyTransaction B b).1 a).1 k := by
  have hvai : validatorAcct ∉ instrAccounts a.Instructions :=
    fun h => hva (List.mem_append_left _ h)
  have hvar : validatorAcct ∉ referencedAccounts a := fun h => hva (List.mem_append_right _ h)
  have hvbi : validatorAcct ∉ instrAccounts b.Instructions :=
    fun h => hvb (List.mem_append_left _ h)
  have hvbr : validatorAcct ∉ referencedAccounts b := fun h => hvb (List.mem_append_right _ h)
  by_cases hkv : k = validatorAcct
  · subst hkv
    have hA : mapGet (ApplyTransaction B a).1 validatorAcct
        = add64 (if a.Fee.Payer = validatorAcct
            then sub64 (mapGet B validatorAcct) a.Fee.Amount
            else mapGet B validatorAcct) a.Fee.Amount := by
      simp [mapGet, mapFind?_applyTransaction_at_validator B a hvai]
    have hB : mapGet (ApplyTransaction B b).1 validatorAcct
        = add64 (if b.Fee.Payer = validatorAcct
            then sub64 (mapGet B validatorAcct) b.Fee.Amount
            else mapGet B validatorAcct) b.Fee.Amount := by
      simp [mapGet, mapFind?_applyTransaction_at_validator B b hvbi]
    rw [mapFind?_applyTransaction_at_validator _ b hvbi,
      mapFind?_applyTransaction_at_validator _ a hvai, hA, hB]
    by_cases ha : a.Fee.Payer = validatorAcct
    · have hb : ¬ b.Fee.Payer = validatorAcct := by
        intro hb
        exact hdisj (ha ▸ payer_mem_touchedAccounts a) (hb ▸ payer_mem_touchedAccounts b)
      rw [if_pos ha, if_neg hb, if_pos ha, if_neg hb]
      unfold add64 sub64 wrap64
      congr 1
      omega
    · by_cases hb : b.Fee.Payer = validatorAcct
      · rw [if_neg ha, if_pos hb, if_neg ha, if_pos hb]
        unfold add64 sub64 wrap64
        congr 1
        omega
      · rw [if_neg ha, if_neg hb, if_neg ha, if_neg hb]
        unfold add64 wrap64
        congr 1
        omega
  · have hBa : ∀ x ∈ touchedAccounts a, x ≠ validatorAcct →
        mapFind? (ApplyTransaction B b).1 x = mapFind? B x := fun x hx hxv =>
      mapFind?_applyTransaction_frame B b x (fun h => hdisj hx h) hxv
    have hBar : AgreeOn (referencedAccounts a) (ApplyTransaction B b).1 B := fun x hx =>
      mapFind?_applyTransaction_frame B b x (fun h => hab hx h) (fun h => hvar (h ▸ hx))
    have hBb : ∀ x ∈ touchedAccounts b, x ≠ validatorAcct →
        mapFind? (ApplyTransaction B a).1 x = mapFind? B x := fun x hx hxv =>
      mapFind?_applyTransaction_frame B a x (fun h => hdisj h hx) hxv
    have hBbr : AgreeOn (referencedAccounts b) (ApplyTransaction B a).1 B := fun x hx =>
      mapFind?_applyTransaction_frame B a x (fun h => hba hx h) (fun h => hvbr (h ▸ hx))
    by_cases hka : k ∈ touchedAccounts a
    · have hkb : k ∉ touchedAccounts b := fun h => hdisj hka h
      rw [mapFind?_applyTransaction_frame _ b k hkb hkv]
      exact (mapFind?_applyTransaction_congr_off_validator _ B a hBa hBar hvai hvar
        k hka hkv).symm
    · by_cases hkb : k ∈ touchedAccounts b
      · rw [mapFind?_applyTransaction_frame _ a k hka hkv]
        exact mapFind?_applyTransaction_congr_off_validator _ B b hBb hBbr hvbi hvbr
          k hkb hkv
      · rw [mapFind?_applyTransaction_frame _ b k hkb hkv,
          mapFind?_applyTransaction_frame _ a k hka hkv,
          mapFind?_applyTransaction_frame _ a k hka hkv,
          mapFind?_applyTransaction_frame _ b k hkb hkv]

/-- C4, counterexample. Three pairs of transactions with disjoint touched-account sets,
each pair placed in one round by `GetPendingTransactions`, whose two orders of
application leave different tables.  In the first pair one transaction references the
balance of "dave", which the other debits; in the second one transaction has an
instruction on the validator account, which the other credits with its fee; in the
third one transaction references the balance of the validator account. -/
theorem applyTransaction_order_matters :
    (List.Disjoint (touchedAccounts referenceTx) (touchedAccounts otherTx) ∧
     (GetPendingTransactions [referenceTx, otherTx] 100).1 = [referenceTx, otherTx] ∧
     mapFind? (ApplyTransaction (ApplyTransaction orderingTable referenceTx).1 otherTx).1 "alice"
       = some 89 ∧
     mapFind? (ApplyTransaction (ApplyTransaction orderingTable otherTx).1 referenceTx).1 "alice"
       = some 95) ∧
    (List.Disjoint (touchedAccounts validatorDebitTx) (touchedAccounts otherTx) ∧
     (GetPendingTransactions [validatorDebitTx, otherTx] 100).1 = [validatorDebitTx, otherTx] ∧
     mapFind?
         (ApplyTransaction (ApplyTransaction orderingTable validatorDebitTx).1 otherTx).1 "alice"
       = some 99 ∧
     mapFind?
         (ApplyTransaction (ApplyTransaction orderingTable otherTx).1 validatorDebitTx).1 "alice"
       = some 101) ∧
    (List.Disjoint (touchedAccounts validatorRefTx) (touchedAccounts otherTx) ∧
     (GetPendingTransactions [validatorRefTx, otherTx] 100).1 = [validatorRefTx, otherTx] ∧
     mapFind?
         (ApplyTransaction (ApplyTransaction orderingTable validatorRefTx).1 otherTx).1 "alice"
       = some 98 ∧
     mapFind?
         (ApplyTransaction (ApplyTransaction orderingTable otherTx).1 validatorRefTx).1 "alice"
       = some 97) := by
  exact ⟨⟨disjoint_of_forall_not_mem (by decide), by decide, by decide, by decide⟩,
    ⟨disjoint_of_forall_not_mem (by decide), by decide, by decide, by decide⟩,
    ⟨disjoint_of_forall_not_mem (by decide), by decide, by decide, by decide⟩⟩

/-- C4, amended. Two transactions with disjoint touched-account sets leave the same
table in either order of application, account by account, when in addition neither
names the validator account as instruction account or referenced account, and neither
holds an account reference to an account the other touches.  Either transaction may
name the validator account as its fee payer. -/
theorem applyTransaction_comm (B : Balances) (a b : Transaction)
    (hdisj : List.Disjoint (touchedAccounts a) (touchedAccounts b))
    (hva : validatorAcct ∉ instrAccounts a.Instructions ++ referencedAccounts a)
    (hvb : validatorAcct ∉ instrAccounts b.Instructions ++ referencedAccounts b)
    (hab : List.Disjoint (referencedAccounts a) (touchedAccounts b))
    (hba : List.Disjoint (referencedAccounts b) (touchedAccounts a)) :
    ∀ k, mapFind? (ApplyTransaction (ApplyTransaction B a).1 b).1 k
      = mapFind? (ApplyTransaction (ApplyTransaction B b).1 a).1 k :=
  fun k => applyTransaction_comm_of_separate B a b hdisj hva hvb hab hba k

/-- C4, amended, at a concrete pair: a transaction whose fee is paid by the validator
account and a transaction referencing "dave" commute, and both orders apply both
instruction lists. -/
theorem applyTransaction_comm_witness :
    (ApplyTransaction (ApplyTransaction commutingTable validatorPaysTx).1 referenceTx).1
      = [("alice", 89), ("dave", 10), ("erin", 7), ("validator", 1), ("frank", 3),
         ("carol", 10)] ∧
    (ApplyTransaction (ApplyTransaction commutingTable referenceTx).1 validatorPaysTx).1
      = [("alice", 89), ("dave", 10), ("erin", 7), ("validator", 1), ("carol", 10),
         ("frank", 3)] ∧
    ∀ k,
      mapFind? (ApplyTransaction (ApplyTransaction commutingTable validatorPaysTx).1
          referenceTx).1 k
        = mapFind? (ApplyTransaction (ApplyTransaction commutingTable referenceTx).1
          validatorPaysTx).1 k :=
  ⟨by decide, by decide,
    applyTransaction_comm commutingTable validatorPaysTx referenceTx
      (disjoint_of_forall_not_mem (by decide)) (by decide) (by decide)
      (disjoint_of_forall_not_mem (by decide)) (disjoint_of_forall_not_mem (by decide))⟩

end TxProcessor
